import Mathlib

/-!
Shallow embedding of the ordered dictionary implemented in src/dict.rs.

Rust `Vec<T>` is modelled as `List T`, and `HashMap<K, usize>` as a
function `K → Option Nat` (Rust `HashMap` equality compares the sets of
entries, which for the finitely supported maps arising here coincides with
function equality).  Panicking operations (out-of-bounds `Vec` indexing,
`Option::unwrap` / `HashMap::get_mut(..).unwrap()` on a missing entry) are
totalised with harmless fallbacks, each noted next to its definition; every
theorem below only touches states in which those panics cannot fire, which
is recorded by the well-formedness predicate `WF`.
-/

namespace RustDict

/-- Position of the first occurrence of a key in a list of keys; this is the
specification-side characterisation of the key-to-position map of a
well-formed dictionary. -/
def posOf {K : Type} [DecidableEq K] (k : K) : List K → Option Nat
  | [] => none
  | a :: t => if a = k then some 0 else (posOf k t).map (· + 1)

/-- Model of `Vec::insert(index, element)`: insert at position `i`, shifting
later elements up.  Rust panics when `i` exceeds the vector length; here the
out-of-range case leaves the list unchanged (theorems below keep `i` in
range, and the panic itself is modelled separately by `insertRun`). -/
def vecInsert {α : Type} : Nat → α → List α → List α
  | 0, a, l => a :: l
  | _ + 1, _, [] => []
  | i + 1, a, x :: t => x :: vecInsert i a t

/-- Swap the adjacent elements at positions `j` and `j + 1`; identity when
`j + 1` is out of range. -/
def swapAdj {α : Type} (l : List α) (j : Nat) : List α :=
  match j, l with
  | 0, x :: y :: t => y :: x :: t
  | _, [] => []
  | 0, [x] => [x]
  | n + 1, x :: t => x :: swapAdj t n

/-- Model of the three-assignment swap
`temp = v[i]; v[i] = v[j]; v[j] = temp` used by the sorts.  Rust panics when
an index is out of bounds; here the list is returned unchanged instead. -/
def swapPos {α : Type} (l : List α) (i j : Nat) : List α :=
  match l[i]?, l[j]? with
  | some x, some y => (l.set i y).set j x
  | _, _ => l

/-- Model of the loop `for (i, key) in keys.iter().enumerate()` that assigns
`key_map[key] = i`, starting the counter at `i`.  The Rust loop obtains the
entry with `get_mut(&key).unwrap()`, so it panics when a key of the list is
absent from the map; the model inserts the binding instead (all uses below
are on states whose keys are all present in the map). -/
def assignFrom {K : Type} [DecidableEq K] (m : K → Option Nat) : Nat → List K → (K → Option Nat)
  | _, [] => m
  | i, k :: t => assignFrom (fun q => if q = k then some i else m q) (i + 1) t

/-- The `Dictionary<K, V>` struct of src/dict.rs. -/
structure Dictionary (K V : Type) where
  len : Nat
  capacity : Nat
  keys : List K
  key_map : K → Option Nat
  values : List V

/-- Model of `Dictionary::new()`: empty dictionary with capacity 0. -/
def Dictionary.new (K V : Type) : Dictionary K V :=
  ⟨0, 0, [], fun _ => none, []⟩

/-- One `while temp > 1 { temp = temp >> 1; n += 1 }` loop of
`update_capacity`, with an explicit fuel argument bounding the number of
iterations (the loop halves `temp` each round, so fuel `temp` suffices and
the fuel never runs out on the calls made by `capLoopCount`). -/
def capLoopAux : Nat → Nat → Nat
  | 0, _ => 0
  | fuel + 1, temp => if 1 < temp then capLoopAux fuel (temp / 2) + 1 else 0

/-- The number `n` computed by the shift loop of `update_capacity`. -/
def capLoopCount (temp : Nat) : Nat :=
  capLoopAux temp temp

/-- Model of `Dictionary::update_capacity`: the new capacity is
`2 << n` where `n` is the number of right shifts needed to bring the old
capacity to 1 or below.  The `reserve` calls on the backing structures only
pre-allocate storage and have no observable effect in the model. -/
def update_capacity {K V : Type} (d : Dictionary K V) : Dictionary K V :=
  { d with capacity := 2 <<< capLoopCount d.capacity }

/-- Model of `Dictionary::push_back`: grow the capacity when full, append
the key and the value, record `key_map[key] = len` (the pre-increment
length, as in the source), and increment `len`. -/
def push_back {K V : Type} [DecidableEq K] (d : Dictionary K V) (k : K) (v : V) :
    Dictionary K V :=
  let d1 := if d.len = d.capacity then update_capacity d else d
  { d1 with
    keys := d1.keys ++ [k]
    key_map := fun q => if q = k then some d1.len else d1.key_map q
    len := d1.len + 1
    values := d1.values ++ [v] }

/-- Model of `Dictionary::remove`: when the key is present at position `i`,
return the removed value together with the new state (both sequences lose
slot `i`, every other stored position greater than `i` is decremented, `len`
is decremented); when absent, return `None` and the unchanged state.
`Vec::remove(i)` panics when `i` is out of bounds; here the removed value is
read with `[i]?` and `eraseIdx` leaves the list unchanged in that
(unreachable for well-formed states) case. -/
def remove {K V : Type} [DecidableEq K] (d : Dictionary K V) (k : K) :
    Option V × Dictionary K V :=
  match d.key_map k with
  | none => (none, d)
  | some i =>
      (d.values[i]?,
       { len := d.len - 1
         capacity := d.capacity
         keys := d.keys.eraseIdx i
         key_map := fun q =>
           if q = k then none
           else (d.key_map q).map fun j => if i < j then j - 1 else j
         values := d.values.eraseIdx i })

/-- Model of the loop
`for key in &self.keys[index + 1..] { *self.key_map.get_mut(&key).unwrap() += 1 }`
of `Dictionary::insert`, run sequentially over the listed keys.  The
`unwrap` panics when a listed key is absent from the map; the model leaves
such an entry untouched instead (unreachable in the verified states). -/
def shiftUp {K : Type} [DecidableEq K] (m : K → Option Nat) : List K → (K → Option Nat)
  | [] => m
  | k :: t => shiftUp (fun q => if q = k then (m q).map (· + 1) else m q) t

/-- Model of `Dictionary::insert(key, value, index)`: insert the value and
the key at `index` in both sequences, then increment the stored position of
every key sitting in `keys[index + 1..]` of the new key sequence.  Note that
the source neither records the new key in `key_map` nor updates `len` or
`capacity`. -/
def insertOp {K V : Type} [DecidableEq K] (d : Dictionary K V) (k : K) (v : V) (i : Nat) :
    Dictionary K V :=
  let values' := vecInsert i v d.values
  let keys' := vecInsert i k d.keys
  { d with
    values := values'
    keys := keys'
    key_map := shiftUp d.key_map (keys'.drop (i + 1)) }

/-- Model of calling `Dictionary::insert` including the panic of the first
statement `self.values.insert(index, value)`: `Vec::insert` asserts
`index <= len` before touching the vector, so an out-of-range index aborts
with no field mutated, which the model renders as `none`. -/
def insertRun {K V : Type} [DecidableEq K] (d : Dictionary K V) (k : K) (v : V) (i : Nat) :
    Option (Dictionary K V) :=
  if i ≤ d.values.length then some (insertOp d k v i) else none

/-- Model of `Dictionary::get`: look the key up in `key_map` and clone the
value at the stored position.  `values[i]` panics when out of bounds; the
model yields `none` there (in every state reached by the theorems the
stored positions are in bounds). -/
def get {K V : Type} [DecidableEq K] (d : Dictionary K V) (k : K) : Option V :=
  (d.key_map k).bind fun i => d.values[i]?

/-- Model of `Dictionary::get_index`: `None` when `i >= len`, otherwise the
value at position `i`. -/
def get_index {K V : Type} (d : Dictionary K V) (i : Nat) : Option V :=
  if i < d.len then d.values[i]? else none

/-- Model of `Dictionary::recompute_map`: reassign `key_map[key] = i` for
every position `i` of the key sequence. -/
def recompute_map {K V : Type} [DecidableEq K] (d : Dictionary K V) : Dictionary K V :=
  { d with key_map := assignFrom d.key_map 0 d.keys }

/-- Model of the value-permuting loop of `sort_by_keys`: for each `new_i`
below `cnt`, look up the old position of `sortedKeys[new_i]` in the
(unmodified) map `m` and swap the values at `new_i` and that old position.
The counter argument comes last so that the recursion is structural. -/
def halfSwap {K V : Type} [DecidableEq K] (m : K → Option Nat) (ks : List K) :
    List V → Nat → Nat → List V
  | vs, _, 0 => vs
  | vs, i, c + 1 =>
    match ks[i]? with
    | none => vs
    | some key =>
      match m key with
      | none => vs
      | some oldI => halfSwap m ks (swapPos vs i oldI) (i + 1) c

/-- Model of `Dictionary::sort_by_keys`: sort the key sequence ascending
(`Vec::sort` is a stable comparison sort; on the duplicate-free key
sequences of well-formed states every comparison sort produces the same,
unique sorted arrangement, modelled here by insertion sort), swap values
for the first `len / 2` sorted keys using the old map, then recompute the
map. -/
def sort_by_keys {K V : Type} [LinearOrder K] [DecidableEq K] (d : Dictionary K V) :
    Dictionary K V :=
  let sortedKeys := List.insertionSort (· ≤ ·) d.keys
  let values' := halfSwap d.key_map sortedKeys d.values 0 (d.len / 2)
  recompute_map { d with keys := sortedKeys, values := values' }

/-- Model of the inner loop `for j in 0..(len - i - 1)` of
`sort_by_values`, starting at index `j` with `steps` iterations left:
compare the values at `j` and `j + 1` and swap both sequences when the
left one is strictly greater, tracking the `swapped` flag.  An
out-of-bounds read (impossible when `j + steps < values.length`) stops the
loop. -/
def sbvPass {K V : Type} [LinearOrder V] :
    List K → List V → Nat → Nat → Bool → List K × List V × Bool
  | ks, vs, _, 0, sw => (ks, vs, sw)
  | ks, vs, j, steps + 1, sw =>
    match vs[j]?, vs[j + 1]? with
    | some a, some b =>
      if b < a then sbvPass (swapAdj ks j) (swapAdj vs j) (j + 1) steps true
      else sbvPass ks vs (j + 1) steps sw
    | _, _ => (ks, vs, sw)

/-- Model of the outer loop `for i in 0..len` of `sort_by_values`, indexed
by the number `r` of remaining iterations (`r = len - i`); each round runs
a pass bounded by `len - i - 1 = r - 1` and breaks when no swap occurred. -/
def sbvLoop {K V : Type} [LinearOrder V] : List K → List V → Nat → List K × List V
  | ks, vs, 0 => (ks, vs)
  | ks, vs, r + 1 =>
    if (sbvPass ks vs 0 r false).2.2
    then sbvLoop (sbvPass ks vs 0 r false).1 (sbvPass ks vs 0 r false).2.1 r
    else ((sbvPass ks vs 0 r false).1, (sbvPass ks vs 0 r false).2.1)

/-- Model of `Dictionary::sort_by_values`: bubble-sort the value sequence
(swapping keys in lockstep) and recompute the map. -/
def sort_by_values {K V : Type} [DecidableEq K] [LinearOrder V] (d : Dictionary K V) :
    Dictionary K V :=
  let p := sbvLoop d.keys d.values d.len
  recompute_map { d with keys := p.1, values := p.2 }

/-- The `DictIter<K, V>` struct: the two vectors moved out of a
dictionary. -/
structure DictIter (K V : Type) where
  key_iter : List K
  val_iter : List V

/-- Model of `Into<DictIter> / IntoIterator for Dictionary` (and of
`Dictionary::iter`): move the key and value storage into the iterator. -/
def Dictionary.intoIter {K V : Type} (d : Dictionary K V) : DictIter K V :=
  ⟨d.keys, d.values⟩

/-- The sequence of pairs yielded by `DictIter::next`: a pair is produced
while both iterators yield, so the stream is the zip of the two lists. -/
def DictIter.pairs {K V : Type} (it : DictIter K V) : List (K × V) :=
  it.key_iter.zip it.val_iter

/-- Model of `Into<Dictionary> for DictIter`: rebuild the three structures
from the yielded pairs, with `len` taken from `key_iter.len()` before
iteration.  The reconstructed capacity is `(len as f32 * 1.1) as usize` in
the source; the `f32` arithmetic is not modelled (the approximation below
is irrelevant: `PartialEq` for `Dictionary` ignores `capacity`). -/
def DictIter.intoDict {K V : Type} [DecidableEq K] (it : DictIter K V) : Dictionary K V :=
  { len := it.key_iter.length
    capacity := it.key_iter.length * 11 / 10
    keys := it.pairs.map Prod.fst
    values := it.pairs.map Prod.snd
    key_map := assignFrom (fun _ => none) 0 (it.pairs.map Prod.fst) }

/-- Model of `PartialEq for Dictionary`: compare the value sequence, the
key sequence and the key map, ignoring `len` and `capacity`. -/
def dictEq {K V : Type} (a b : Dictionary K V) : Prop :=
  a.values = b.values ∧ a.keys = b.keys ∧ a.key_map = b.key_map

/-- Building a dictionary by a sequence of `push_back` calls starting from
`new()`. -/
def buildList {K V : Type} [DecidableEq K] (l : List (K × V)) : Dictionary K V :=
  l.foldl (fun d p => push_back d p.1 p.2) (Dictionary.new K V)

/-- Well-formedness: lengths agree with `len`, keys are pairwise distinct,
and the key map stores exactly the position of each present key. -/
def WF {K V : Type} [DecidableEq K] (d : Dictionary K V) : Prop :=
  d.len = d.keys.length ∧ d.len = d.values.length ∧ d.keys.Nodup ∧
    ∀ k, d.key_map k = posOf k d.keys

/-- A dictionary built by appending pairwise-distinct keys. -/
def Built {K V : Type} [DecidableEq K] (d : Dictionary K V) : Prop :=
  ∃ l : List (K × V), (l.map Prod.fst).Nodup ∧ d = buildList l

/-- States reachable from `new()` by `push_back` of a not-yet-present key,
`remove`, `sort_by_keys` and `sort_by_values`. -/
inductive Reachable {K V : Type} [LinearOrder K] [DecidableEq K] [LinearOrder V] :
    Dictionary K V → Prop
  | empty : Reachable (Dictionary.new K V)
  | push (d : Dictionary K V) (k : K) (v : V) :
      Reachable d → d.key_map k = none → Reachable (push_back d k v)
  | rem (d : Dictionary K V) (k : K) : Reachable d → Reachable (remove d k).2
  | sortK (d : Dictionary K V) : Reachable d → Reachable (sort_by_keys d)
  | sortV (d : Dictionary K V) : Reachable d → Reachable (sort_by_values d)

/-- The dictionary over `Nat` keys and values obtained from `new()` by `n`
successive `push_back` calls (capacity evolution does not depend on the
pushed keys or values). -/
def pushN : Nat → Dictionary Nat Nat
  | 0 => Dictionary.new Nat Nat
  | n + 1 => push_back (pushN n) n 0


/-! ### Basic facts about `posOf` -/

lemma posOf_eq_none_iff {K : Type} [DecidableEq K] {k : K} {l : List K} :
    posOf k l = none ↔ k ∉ l := by
  induction l with
  | nil => simp [posOf]
  | cons a t ih =>
    by_cases h : a = k
    · simp [posOf, h]
    · simp [posOf, h, Option.map_eq_none', ih, Ne.symm h]

lemma posOf_getElem? {K : Type} [DecidableEq K] {k : K} {l : List K} {i : Nat}
    (h : posOf k l = some i) : l[i]? = some k := by
  induction l generalizing i with
  | nil => simp [posOf] at h
  | cons a t ih =>
    by_cases ha : a = k
    · simp [posOf, ha] at h
      subst ha h
      simp
    · simp only [posOf, ha, if_false, Option.map_eq_some'] at h
      obtain ⟨j, hj, rfl⟩ := h
      simpa using ih hj

lemma getElem?_posOf {K : Type} [DecidableEq K] {k : K} {l : List K} {i : Nat}
    (hnd : l.Nodup) (h : l[i]? = some k) : posOf k l = some i := by
  induction l generalizing i with
  | nil => simp at h
  | cons a t ih =>
    match i with
    | 0 =>
      simp only [List.getElem?_cons_zero, Option.some.injEq] at h
      simp [posOf, h]
    | i + 1 =>
      simp only [List.getElem?_cons_succ] at h
      have hk : k ∈ t := List.mem_iff_getElem?.2 ⟨i, h⟩
      have ha : a ≠ k := fun he => (List.nodup_cons.1 hnd).1 (he ▸ hk)
      simp [posOf, ha, ih (List.nodup_cons.1 hnd).2 h]

lemma posOf_lt_length {K : Type} [DecidableEq K] {k : K} {l : List K} {i : Nat}
    (h : posOf k l = some i) : i < l.length := by
  have := posOf_getElem? h
  exact (List.getElem?_eq_some.1 this).1

lemma posOf_append_left {K : Type} [DecidableEq K] {k : K} {l₁ : List K} {i : Nat}
    (l₂ : List K) (h : posOf k l₁ = some i) : posOf k (l₁ ++ l₂) = some i := by
  induction l₁ generalizing i with
  | nil => simp [posOf] at h
  | cons a t ih =>
    by_cases ha : a = k
    · simp [posOf, ha] at h ⊢
      exact h
    · simp only [posOf, ha, if_false, Option.map_eq_some'] at h
      obtain ⟨j, hj, rfl⟩ := h
      have : posOf k (t ++ l₂) = some j := ih hj
      simp [posOf, ha, this]

lemma posOf_append_right {K : Type} [DecidableEq K] {k : K} {l₁ l₂ : List K}
    (h : posOf k l₁ = none) :
    posOf k (l₁ ++ l₂) = (posOf k l₂).map (· + l₁.length) := by
  induction l₁ with
  | nil => simp
  | cons a t ih =>
    by_cases ha : a = k
    · simp [posOf, ha] at h
    · simp only [posOf, ha, if_false, Option.map_eq_none'] at h
      have hr := ih h
      rcases h2 : posOf k l₂ with _ | x
      · rw [h2] at hr
        simp only [Option.map_none'] at hr
        simp [List.cons_append, posOf, ha, List.append_eq, hr, h2]
      · rw [h2] at hr
        simp only [Option.map_some'] at hr
        simp only [List.cons_append, posOf, ha, if_false, List.append_eq, hr, h2,
          Option.map_some', List.length_cons, Option.some.injEq]
        omega

/-! ### Facts about `vecInsert`, `shiftUp`, `assignFrom` -/

lemma vecInsert_eq {α : Type} {i : Nat} {l : List α} (a : α) (h : i ≤ l.length) :
    vecInsert i a l = l.take i ++ a :: l.drop i := by
  induction l generalizing i with
  | nil =>
    have : i = 0 := Nat.le_zero.1 h
    subst this
    rfl
  | cons x t ih =>
    match i with
    | 0 => rfl
    | i + 1 =>
      simp only [List.length_cons, Nat.add_le_add_iff_right] at h
      simp [vecInsert, ih h]

lemma length_vecInsert {α : Type} {i : Nat} {l : List α} (a : α) (h : i ≤ l.length) :
    (vecInsert i a l).length = l.length + 1 := by
  rw [vecInsert_eq a h]
  simp only [List.length_append, List.length_take, List.length_cons, List.length_drop]
  omega

lemma drop_vecInsert {α : Type} {i : Nat} {l : List α} (a : α) (h : i ≤ l.length) :
    (vecInsert i a l).drop (i + 1) = l.drop i := by
  rw [vecInsert_eq a h]
  have ht : (l.take i).length = i := by
    simp only [List.length_take]
    omega
  calc (l.take i ++ a :: l.drop i).drop (i + 1)
      = (l.take i ++ a :: l.drop i).drop ((l.take i).length + 1) := by rw [ht]
    _ = (a :: l.drop i).drop 1 := List.drop_append 1
    _ = l.drop i := rfl

lemma shiftUp_eq {K : Type} [DecidableEq K] {L : List K} (hL : L.Nodup)
    (m : K → Option Nat) (q : K) :
    shiftUp m L q = if q ∈ L then (m q).map (· + 1) else m q := by
  induction L generalizing m with
  | nil => simp [shiftUp]
  | cons k t ih =>
    obtain ⟨hk, ht⟩ := List.nodup_cons.1 hL
    rw [shiftUp, ih ht]
    by_cases hq : q ∈ t
    · have hqk : q ≠ k := fun he => hk (he ▸ hq)
      simp [hq, hqk]
    · by_cases he : q = k
      · simp [hq, he, hk]
      · simp [hq, he]

lemma assignFrom_of_not_mem {K : Type} [DecidableEq K] {L : List K} {q : K}
    (hq : q ∉ L) (m : K → Option Nat) (i : Nat) :
    assignFrom m i L q = m q := by
  induction L generalizing m i with
  | nil => rfl
  | cons k t ih =>
    have hqk : q ≠ k := fun he => hq (he ▸ List.mem_cons_self k t)
    have hqt : q ∉ t := fun hm => hq (List.mem_cons_of_mem k hm)
    rw [assignFrom, ih hqt]
    simp [hqk]

lemma assignFrom_of_posOf {K : Type} [DecidableEq K] {L : List K} {q : K} {p : Nat}
    (hL : L.Nodup) (hp : posOf q L = some p) (m : K → Option Nat) (i : Nat) :
    assignFrom m i L q = some (i + p) := by
  induction L generalizing m i p with
  | nil => simp [posOf] at hp
  | cons k t ih =>
    obtain ⟨hk, ht⟩ := List.nodup_cons.1 hL
    by_cases he : k = q
    · simp only [posOf, he, if_true, Option.some.injEq] at hp
      have hqt : q ∉ t := he ▸ hk
      rw [assignFrom, assignFrom_of_not_mem hqt]
      simp [← he, ← hp]
    · simp only [posOf, he, if_false, Option.map_eq_some'] at hp
      obtain ⟨j, hj, rfl⟩ := hp
      rw [assignFrom, ih ht hj]
      congr 1
      omega

/-! ### The fields of `push_back`, and well-formedness of built dictionaries -/

lemma push_back_keys {K V : Type} [DecidableEq K] (d : Dictionary K V) (k : K) (v : V) :
    (push_back d k v).keys = d.keys ++ [k] := by
  by_cases h : d.len = d.capacity <;> simp [push_back, update_capacity, h]

lemma push_back_values {K V : Type} [DecidableEq K] (d : Dictionary K V) (k : K) (v : V) :
    (push_back d k v).values = d.values ++ [v] := by
  by_cases h : d.len = d.capacity <;> simp [push_back, update_capacity, h]

lemma push_back_len {K V : Type} [DecidableEq K] (d : Dictionary K V) (k : K) (v : V) :
    (push_back d k v).len = d.len + 1 := by
  by_cases h : d.len = d.capacity <;> simp [push_back, update_capacity, h]

lemma push_back_key_map {K V : Type} [DecidableEq K] (d : Dictionary K V) (k : K) (v : V) :
    (push_back d k v).key_map = fun q => if q = k then some d.len else d.key_map q := by
  by_cases h : d.len = d.capacity <;> simp [push_back, update_capacity, h]

lemma push_back_capacity {K V : Type} [DecidableEq K] (d : Dictionary K V) (k : K) (v : V) :
    (push_back d k v).capacity =
      if d.len = d.capacity then 2 <<< capLoopCount d.capacity else d.capacity := by
  by_cases h : d.len = d.capacity <;> simp [push_back, update_capacity, h]

lemma WF_push_back {K V : Type} [DecidableEq K] {d : Dictionary K V} {k : K}
    (hd : WF d) (hk : d.key_map k = none) (v : V) : WF (push_back d k v) := by
  obtain ⟨hlk, hlv, hnd, hmap⟩ := hd
  have hpos : posOf k d.keys = none := (hmap k).symm.trans hk
  have hkm : k ∉ d.keys := posOf_eq_none_iff.1 hpos
  refine ⟨?_, ?_, ?_, ?_⟩
  · simp [push_back_keys, push_back_len, hlk]
  · simp [push_back_values, push_back_len, hlv]
  · rw [push_back_keys]
    exact List.nodup_append.2 ⟨hnd, List.nodup_singleton k, by
      intro a ha hb
      simp only [List.mem_singleton] at hb
      exact hkm (hb ▸ ha)⟩
  · intro q
    simp only [push_back_key_map, push_back_keys]
    by_cases hq : q = k
    · subst hq
      simp only [if_pos rfl]
      rw [posOf_append_right hpos]
      simp [posOf, hlk]
    · simp only [if_neg hq]
      rcases hp : posOf q d.keys with _ | i
      · rw [posOf_append_right hp, hmap q, hp]
        simp [posOf, Ne.symm hq]
      · rw [posOf_append_left _ hp, hmap q, hp]

/-! ### Characterisation of dictionaries built by distinct appends -/

lemma build_fold {K V : Type} [DecidableEq K] (l : List (K × V)) :
    ∀ d : Dictionary K V, WF d → (∀ p ∈ l, p.1 ∉ d.keys) → (l.map Prod.fst).Nodup →
    WF (l.foldl (fun d p => push_back d p.1 p.2) d) ∧
    (l.foldl (fun d p => push_back d p.1 p.2) d).keys = d.keys ++ l.map Prod.fst ∧
    (l.foldl (fun d p => push_back d p.1 p.2) d).values = d.values ++ l.map Prod.snd ∧
    (l.foldl (fun d p => push_back d p.1 p.2) d).len = d.len + l.length := by
  induction l with
  | nil =>
    intro d hd _ _
    simpa using hd
  | cons p t ih =>
    intro d hd hfr hnd
    simp only [List.map_cons, List.nodup_cons] at hnd
    have hkm : d.key_map p.1 = none := by
      rw [hd.2.2.2 p.1]
      exact posOf_eq_none_iff.2 (hfr p (List.mem_cons_self p t))
    have hwf' : WF (push_back d p.1 p.2) := WF_push_back hd hkm p.2
    have hfr' : ∀ q ∈ t, q.1 ∉ (push_back d p.1 p.2).keys := by
      intro q hq
      rw [push_back_keys]
      simp only [List.mem_append, List.mem_singleton]
      rintro (h | h)
      · exact hfr q (List.mem_cons_of_mem p hq) h
      · exact hnd.1 (h ▸ List.mem_map_of_mem Prod.fst hq)
    obtain ⟨H1, H2, H3, H4⟩ := ih (push_back d p.1 p.2) hwf' hfr' hnd.2
    simp only [List.foldl_cons]
    refine ⟨H1, ?_, ?_, ?_⟩
    · rw [H2, push_back_keys]
      simp
    · rw [H3, push_back_values]
      simp
    · rw [H4, push_back_len]
      simp only [List.map_cons, List.length_cons]
      omega

lemma built_spec {K V : Type} [DecidableEq K] {l : List (K × V)}
    (h : (l.map Prod.fst).Nodup) :
    WF (buildList l) ∧ (buildList l).keys = l.map Prod.fst ∧
    (buildList l).values = l.map Prod.snd ∧ (buildList l).len = l.length := by
  have hwfnew : WF (Dictionary.new K V) := ⟨rfl, rfl, List.nodup_nil, fun _ => rfl⟩
  obtain ⟨H1, H2, H3, H4⟩ :=
    build_fold l (Dictionary.new K V) hwfnew (by intro p _ hm; cases hm) h
  refine ⟨H1, by simpa using H2, by simpa using H3, ?_⟩
  have hz : (Dictionary.new K V).len = 0 := rfl
  rw [buildList, H4, hz, Nat.zero_add]

lemma Built.wf {K V : Type} [DecidableEq K] {d : Dictionary K V} (h : Built d) : WF d := by
  obtain ⟨l, hnd, rfl⟩ := h
  exact (built_spec hnd).1

lemma mem_drop_iff_posOf {K : Type} [DecidableEq K] {l : List K} {q : K} {j i : Nat}
    (hnd : l.Nodup) (hp : posOf q l = some j) : q ∈ l.drop i ↔ i ≤ j := by
  constructor
  · intro hm
    obtain ⟨j', hj'⟩ := List.mem_iff_getElem?.1 hm
    rw [List.getElem?_drop] at hj'
    have h2 := getElem?_posOf hnd hj'
    rw [hp] at h2
    have : j = i + j' := by exact Option.some.inj h2
    omega
  · intro hij
    have hg := posOf_getElem? hp
    refine List.mem_iff_getElem?.2 ⟨j - i, ?_⟩
    rw [List.getElem?_drop]
    have he : i + (j - i) = j := by omega
    rw [he]
    exact hg

/-- The dictionary of the spec scenarios 3 and 4: appends of (3,4), (1,7),
(2,1), (5,9). -/
def exDict : Dictionary Nat Nat := buildList [(3,4),(1,7),(2,1),(5,9)]

lemma exDict_built : Built exDict :=
  ⟨[(3,4),(1,7),(2,1),(5,9)], by decide, rfl⟩

/-- The dictionary of spec scenarios 1 and 2 with numeric values: appends of
(1,10) and (2,20). -/
def dPair : Dictionary Nat Nat := buildList [(1,10),(2,20)]

lemma dPair_built : Built dPair :=
  ⟨[(1,10),(2,20)], by decide, rfl⟩

/-- Claim C4 (refuted by the code, which contradicts its own comment): after
appending (3,4), (1,7), (2,1), (5,9) and calling insert(6, 7, 2) — an
insert of a key not previously present — the key 6 sits in the key sequence
but `key_map` has no entry for it (so `get(6)` is `None`): `insert` never
records the inserted key in the map, although its comment announces that the
index map will be updated, and the spec requires the map to contain exactly
the present keys after every public mutating operation. -/
theorem c4_insert_key_map_missing_entry :
    (6 : Nat) ∈ (insertOp exDict 6 7 2).keys ∧
    (insertOp exDict 6 7 2).key_map 6 = none ∧
    get (insertOp exDict 6 7 2) 6 = none := by
  decide

/-- Claim C7: on a dictionary built by appending pairwise-distinct keys,
`insert(key, value, position)` with a position at most `len` succeeds (no
panic), splices the key and the value into both sequences at that position,
increments the stored position of every key originally at or after the
position, and leaves `len` and `capacity` unchanged. -/
theorem c7_insert_shifts {K V : Type} [DecidableEq K] (d : Dictionary K V) (k : K) (v : V)
    (i : Nat) (hd : Built d) (hi : i ≤ d.len) :
    insertRun d k v i = some (insertOp d k v i) ∧
    (insertOp d k v i).keys = d.keys.take i ++ k :: d.keys.drop i ∧
    (insertOp d k v i).values = d.values.take i ++ v :: d.values.drop i ∧
    (insertOp d k v i).len = d.len ∧
    (insertOp d k v i).capacity = d.capacity ∧
    ∀ q j, d.key_map q = some j →
      (insertOp d k v i).key_map q = some (if i ≤ j then j + 1 else j) := by
  obtain ⟨hlk, hlv, hnd, hmap⟩ := hd.wf
  have hik : i ≤ d.keys.length := hlk ▸ hi
  have hiv : i ≤ d.values.length := hlv ▸ hi
  refine ⟨by simp [insertRun, hiv], ?_, ?_, rfl, rfl, ?_⟩
  · simp only [insertOp]
    exact vecInsert_eq k hik
  · simp only [insertOp]
    exact vecInsert_eq v hiv
  · intro q j hq
    have hpos : posOf q d.keys = some j := (hmap q).symm.trans hq
    have hdropnd : (d.keys.drop i).Nodup := (List.drop_sublist i d.keys).nodup hnd
    simp only [insertOp, drop_vecInsert k hik]
    rw [shiftUp_eq hdropnd]
    by_cases hij : i ≤ j
    · rw [if_pos ((mem_drop_iff_posOf hnd hpos).2 hij), hq]
      simp [hij]
    · rw [if_neg (fun hm => hij ((mem_drop_iff_posOf hnd hpos).1 hm)), hq]
      simp [hij]

/-- Witness for C7 at spec scenario 4: inserting (6, 7) at position 2 of the
dictionary built from (3,4), (1,7), (2,1), (5,9) yields the key sequence
[3, 1, 6, 2, 5]. -/
theorem c7_witness :
    Built exDict ∧ 2 ≤ exDict.len ∧
    (insertRun exDict 6 7 2 = some (insertOp exDict 6 7 2) ∧
     (insertOp exDict 6 7 2).keys = exDict.keys.take 2 ++ 6 :: exDict.keys.drop 2 ∧
     (insertOp exDict 6 7 2).values = exDict.values.take 2 ++ 7 :: exDict.values.drop 2 ∧
     (insertOp exDict 6 7 2).len = exDict.len ∧
     (insertOp exDict 6 7 2).capacity = exDict.capacity ∧
     ∀ q j, exDict.key_map q = some j →
       (insertOp exDict 6 7 2).key_map q = some (if 2 ≤ j then j + 1 else j)) ∧
    (insertOp exDict 6 7 2).keys = [3, 1, 6, 2, 5] :=
  ⟨exDict_built, by decide, c7_insert_shifts exDict 6 7 2 exDict_built (by decide), by decide⟩

/-- Claim C8: on a dictionary built by appending pairwise-distinct keys,
`insert` with a position strictly greater than `len` fails loudly before
mutating anything: the bounds assertion of the very first vector operation
`values.insert` panics, modelled by `insertRun` returning `none` with no
state produced. -/
theorem c8_insert_position_too_large {K V : Type} [DecidableEq K] (d : Dictionary K V)
    (k : K) (v : V) (i : Nat) (hd : Built d) (hi : d.len < i) :
    insertRun d k v i = none := by
  have hlv := hd.wf.2.1
  have : ¬ i ≤ d.values.length := by omega
  simp [insertRun, this]

/-- Witness for C8: inserting at position 7 of the four-entry example
dictionary is rejected. -/
theorem c8_witness :
    Built exDict ∧ exDict.len < 7 ∧ insertRun exDict 6 7 7 = none :=
  ⟨exDict_built, by decide, c8_insert_position_too_large exDict 6 7 7 exDict_built (by decide)⟩

/-- Claim C6: on a dictionary built by appending pairwise-distinct keys,
`remove(k)` returns the value paired with `k` when present — erasing that
slot from both sequences, decrementing every stored position greater than
the removed one, decrementing `len` and keeping `capacity` — and returns
`None` with the dictionary completely unchanged when `k` is absent. -/
theorem c6_remove_spec {K V : Type} [DecidableEq K] (d : Dictionary K V) (k : K)
    (hd : Built d) :
    (k ∉ d.keys → remove d k = (none, d)) ∧
    ∀ i, d.key_map k = some i →
      ((remove d k).1 = get d k ∧ (∃ v, get d k = some v) ∧
       (remove d k).2.keys = d.keys.eraseIdx i ∧
       (remove d k).2.values = d.values.eraseIdx i ∧
       (remove d k).2.len = d.len - 1 ∧
       (remove d k).2.capacity = d.capacity ∧
       (remove d k).2.key_map k = none ∧
       ∀ q j, q ≠ k → d.key_map q = some j →
         (remove d k).2.key_map q = some (if i < j then j - 1 else j)) := by
  obtain ⟨hlk, hlv, hnd, hmap⟩ := hd.wf
  constructor
  · intro hk
    have hmn : d.key_map k = none := (hmap k).trans (posOf_eq_none_iff.2 hk)
    simp [remove, hmn]
  · intro i hi
    have hpos : posOf k d.keys = some i := (hmap k).symm.trans hi
    have hklt : i < d.keys.length := posOf_lt_length hpos
    have hvlt : i < d.values.length := by omega
    refine ⟨by simp [remove, get, hi], ?_, by simp [remove, hi], by simp [remove, hi],
      by simp [remove, hi], by simp [remove, hi], by simp [remove, hi], ?_⟩
    · have hv : d.values[i]? = some (d.values.get ⟨i, hvlt⟩) := by
        rw [List.getElem?_eq_some]
        exact ⟨hvlt, rfl⟩
      exact ⟨d.values.get ⟨i, hvlt⟩, by simp [get, hi, hv]⟩
    · intro q j hq hj
      simp [remove, hi, hq, hj]

/-- Witness for C6 at spec scenario 2 (with numeric values): removing key 1
from the dictionary built from (1,10), (2,20) returns 10; afterwards key 1
is absent, key 2 still maps to 20, and `len` is 1. -/
theorem c6_witness :
    Built dPair ∧ dPair.key_map 1 = some 0 ∧
    ((remove dPair 1).1 = get dPair 1 ∧ (∃ v, get dPair 1 = some v) ∧
     (remove dPair 1).2.keys = dPair.keys.eraseIdx 0 ∧
     (remove dPair 1).2.values = dPair.values.eraseIdx 0 ∧
     (remove dPair 1).2.len = dPair.len - 1 ∧
     (remove dPair 1).2.capacity = dPair.capacity ∧
     (remove dPair 1).2.key_map 1 = none ∧
     ∀ q j, q ≠ 1 → dPair.key_map q = some j →
       (remove dPair 1).2.key_map q = some (if 0 < j then j - 1 else j)) ∧
    (remove dPair 1).1 = some 10 ∧ get (remove dPair 1).2 1 = none ∧
    get (remove dPair 1).2 2 = some 20 ∧ (remove dPair 1).2.len = 1 :=
  ⟨dPair_built, by decide, (c6_remove_spec dPair 1 dPair_built).2 0 (by decide),
   by decide, by decide, by decide, by decide⟩

/-! ### The capacity growth schedule -/

lemma capLoopAux_irrel : ∀ f₁ f₂ t : Nat, t ≤ f₁ → t ≤ f₂ →
    capLoopAux f₁ t = capLoopAux f₂ t := by
  intro f₁
  induction f₁ with
  | zero =>
    intro f₂ t h₁ _
    have ht : t = 0 := Nat.le_zero.1 h₁
    subst ht
    cases f₂ with
    | zero => rfl
    | succ f => simp [capLoopAux]
  | succ f ih =>
    intro f₂ t h₁ h₂
    by_cases hlt : 1 < t
    · obtain ⟨g, rfl⟩ : ∃ g, f₂ = g + 1 := ⟨f₂ - 1, by omega⟩
      have hd : t / 2 ≤ f := by omega
      have hd2 : t / 2 ≤ g := by omega
      simp only [capLoopAux, if_pos hlt]
      rw [ih g (t / 2) hd hd2]
    · cases f₂ with
      | zero =>
        have ht : t = 0 := Nat.le_zero.1 h₂
        subst ht
        simp [capLoopAux]
      | succ g => simp [capLoopAux, hlt]

lemma capLoopCount_pow (m : Nat) : capLoopCount (2 ^ m) = m := by
  induction m with
  | zero => rfl
  | succ m ih =>
    have h2 : (2 : Nat) ^ (m + 1) = 2 ^ m * 2 := by ring
    have hpos : 0 < (2 : Nat) ^ m := Nat.pos_pow_of_pos m (by omega)
    obtain ⟨f, hf⟩ : ∃ f, 2 ^ (m + 1) = f + 1 := ⟨2 ^ (m + 1) - 1, by omega⟩
    have hgt : 1 < 2 ^ (m + 1) := by
      calc 1 < 2 ^ m * 2 := by omega
        _ = 2 ^ (m + 1) := h2.symm
    have hdiv : 2 ^ (m + 1) / 2 = 2 ^ m := by
      rw [h2]
      exact Nat.mul_div_cancel _ (by omega)
    have hle : 2 ^ m ≤ f := by omega
    rw [capLoopCount, hf]
    simp only [capLoopAux, if_pos (hf ▸ hgt)]
    have hdiv2 : (f + 1) / 2 = 2 ^ m := by
      rw [← hf]
      exact hdiv
    rw [hdiv2, capLoopAux_irrel f (2 ^ m) (2 ^ m) hle (Nat.le_refl _), ← capLoopCount, ih]

lemma pushN_spec (n : Nat) :
    (pushN n).len = n ∧ n ≤ (pushN n).capacity ∧
    (pushN n).capacity = if n = 0 then 0 else 2 ^ max 1 (Nat.clog 2 n) := by
  induction n with
  | zero => exact ⟨rfl, Nat.le_refl 0, rfl⟩
  | succ n ih =>
    obtain ⟨hlen, hle, hcap⟩ := ih
    have hpush : pushN (n + 1) = push_back (pushN n) n 0 := rfl
    have hL : (pushN (n + 1)).len = n + 1 := by rw [hpush, push_back_len, hlen]
    by_cases hfull : (pushN n).len = (pushN n).capacity
    · have hcap' : (pushN (n + 1)).capacity = 2 <<< capLoopCount (pushN n).capacity := by
        rw [hpush, push_back_capacity, if_pos hfull]
      rcases Nat.eq_zero_or_pos n with hn0 | hnpos
      · subst hn0
        have h0 : (pushN 0).capacity = 0 := rfl
        rw [h0] at hcap'
        have h2 : (2 : Nat) <<< capLoopCount 0 = 2 := by decide
        rw [h2] at hcap'
        refine ⟨hL, by omega, ?_⟩
        rw [hcap']
        simp [Nat.clog_one_right]
      · set M := max 1 (Nat.clog 2 n) with hM
        have hcapn : (pushN n).capacity = 2 ^ M := by
          rw [hcap, if_neg (by omega)]
        have hn2 : n = 2 ^ M := by
          rw [hlen] at hfull
          rw [hfull, hcapn]
        have hM1 : 1 ≤ M := le_max_left _ _
        have h2M : 2 ≤ 2 ^ M := by
          calc (2 : Nat) = 2 ^ 1 := rfl
            _ ≤ 2 ^ M := Nat.pow_le_pow_right (by omega) hM1
        have hpow : (2 : Nat) ^ (M + 1) = 2 * 2 ^ M := by ring
        have hclog : Nat.clog 2 (n + 1) = M + 1 := by
          have hub : Nat.clog 2 (n + 1) ≤ M + 1 := by
            rw [← Nat.le_pow_iff_clog_le (by omega)]
            rw [hn2, hpow]
            omega
          have hlb : ¬ Nat.clog 2 (n + 1) ≤ M := by
            intro hcon
            have hcon2 : n + 1 ≤ 2 ^ M := (Nat.le_pow_iff_clog_le (by omega)).2 hcon
            omega
          omega
        have hcount : capLoopCount (pushN n).capacity = M := by
          rw [hcapn, capLoopCount_pow]
        refine ⟨hL, ?_, ?_⟩
        · rw [hcap', hcount, Nat.shiftLeft_eq]
          omega
        · rw [hcap', hcount, Nat.shiftLeft_eq, if_neg (by omega), hclog]
          have hmx : max 1 (M + 1) = M + 1 := by omega
          rw [hmx, hpow]
    · have hcap' : (pushN (n + 1)).capacity = (pushN n).capacity := by
        rw [hpush, push_back_capacity, if_neg hfull]
      have hnpos : 1 ≤ n := by
        by_contra h0
        have hz : n = 0 := by omega
        subst hz
        exact hfull rfl
      set M := max 1 (Nat.clog 2 n) with hM
      have hcapn : (pushN n).capacity = 2 ^ M := by
        rw [hcap, if_neg (by omega)]
      have hlt : n < 2 ^ M := by
        have hne : n ≠ (pushN n).capacity := fun h => hfull (hlen.trans h)
        rw [hcapn] at hne hle
        omega
      have hclog : Nat.clog 2 (n + 1) ≤ M := by
        rw [← Nat.le_pow_iff_clog_le (by omega)]
        omega
      have hge : Nat.clog 2 n ≤ Nat.clog 2 (n + 1) := Nat.clog_mono_right 2 (by omega)
      have hMeq : max 1 (Nat.clog 2 (n + 1)) = M := by omega
      refine ⟨hL, ?_, ?_⟩
      · rw [hcap', hcapn]
        omega
      · rw [hcap', hcapn, if_neg (by omega), hMeq]

/-- Claim C5: starting from `new()` (capacity 0), `n` successive appends
leave `len = n`, and the capacity after the (n+1)-st append is
`2 ^ max 1 (ceil (log2 (n + 1)))`, which is the schedule 2, 2, 4, 4, 8, 8,
8, 8, ...; growth is triggered exactly when `len` equals `capacity`
(capacity changes at an append if and only if the dictionary was full), the
initial capacity 0 grows to 2, and every later growth step maps capacity
`2 ^ (m + 1)` to `2 ^ (m + 2)`, the smallest power of two strictly greater
than it. -/
theorem c5_capacity_schedule (n : Nat) :
    (pushN n).len = n ∧
    (pushN 0).capacity = 0 ∧
    (pushN (n + 1)).capacity = 2 ^ max 1 (Nat.clog 2 (n + 1)) ∧
    ((pushN (n + 1)).capacity ≠ (pushN n).capacity ↔ (pushN n).len = (pushN n).capacity) ∧
    2 <<< capLoopCount 0 = 2 ∧
    ∀ m : Nat, 2 <<< capLoopCount (2 ^ (m + 1)) = 2 ^ (m + 2) := by
  obtain ⟨hlen, hle, hcap⟩ := pushN_spec n
  obtain ⟨hlen', hle', hcap'⟩ := pushN_spec (n + 1)
  refine ⟨hlen, rfl, by rw [hcap', if_neg (by omega)], ?_, by decide, ?_⟩
  · constructor
    · intro hne
      by_contra hnf
      exact hne (by rw [show pushN (n + 1) = push_back (pushN n) n 0 from rfl,
        push_back_capacity, if_neg hnf])
    · intro hf
      rw [show pushN (n + 1) = push_back (pushN n) n 0 from rfl,
        push_back_capacity, if_pos hf]
      rcases Nat.eq_zero_or_pos n with hn0 | hnpos
      · subst hn0
        have h0 : (pushN 0).capacity = 0 := rfl
        rw [h0]
        decide
      · have hcapn : (pushN n).capacity = 2 ^ max 1 (Nat.clog 2 n) := by
          rw [hcap, if_neg (by omega)]
        have hpos : 1 ≤ 2 ^ max 1 (Nat.clog 2 n) := Nat.pos_pow_of_pos _ (by omega)
        rw [hcapn, capLoopCount_pow, Nat.shiftLeft_eq]
        omega
  · intro m
    rw [capLoopCount_pow, Nat.shiftLeft_eq]
    ring

/-- Witness-style instance for C5: after four appends the length is 4, and
the capacity after the fifth append matches the schedule formula and
equals 8. -/
theorem c5_witness :
    (pushN 4).len = 4 ∧ (pushN 5).capacity = 2 ^ max 1 (Nat.clog 2 5) ∧
    (pushN 5).capacity = 8 :=
  ⟨(c5_capacity_schedule 4).1, (c5_capacity_schedule 4).2.2.1, by decide⟩

/-! ### Facts about `swapPos`, `halfSwap`, `recompute_map`, `sort_by_keys` -/

lemma set_getElem_self {α : Type} {l : List α} {i : Nat} {x : α}
    (h : l[i]? = some x) : l.set i x = l := by
  induction l generalizing i with
  | nil => simp at h
  | cons a t ih =>
    match i with
    | 0 =>
      simp only [List.getElem?_cons_zero, Option.some.injEq] at h
      simp [h]
    | i + 1 =>
      simp only [List.getElem?_cons_succ] at h
      simp [List.set_cons_succ, ih h]

lemma swapPos_self {α : Type} (l : List α) (i : Nat) : swapPos l i i = l := by
  unfold swapPos
  cases h : l[i]? with
  | none => rfl
  | some x =>
    simp only [List.set_set]
    exact set_getElem_self h

lemma swapPos_length {α : Type} (l : List α) (i j : Nat) :
    (swapPos l i j).length = l.length := by
  unfold swapPos
  cases l[i]? <;> cases l[j]? <;> simp

lemma halfSwap_length {K V : Type} [DecidableEq K] (m : K → Option Nat) (ks : List K) :
    ∀ (vs : List V) (i c : Nat), (halfSwap m ks vs i c).length = vs.length := by
  intro vs i c
  induction c generalizing vs i with
  | zero => rfl
  | succ c ih =>
    show (halfSwap m ks vs i (c + 1)).length = vs.length
    rw [halfSwap]
    cases hk : ks[i]? with
    | none => rfl
    | some key =>
      show (match m key with
        | none => vs
        | some oldI => halfSwap m ks (swapPos vs i oldI) (i + 1) c).length = vs.length
      cases hm : m key with
      | none => rfl
      | some oldI =>
        show (halfSwap m ks (swapPos vs i oldI) (i + 1) c).length = vs.length
        rw [ih, swapPos_length]

lemma halfSwap_id {K V : Type} [DecidableEq K] {m : K → Option Nat} {ks : List K}
    (hsk : ∀ (i : Nat) (k : K), ks[i]? = some k → m k = some i) :
    ∀ (vs : List V) (i c : Nat), halfSwap m ks vs i c = vs := by
  intro vs i c
  induction c generalizing vs i with
  | zero => rfl
  | succ c ih =>
    rw [halfSwap]
    cases hk : ks[i]? with
    | none => rfl
    | some key =>
      show (match m key with
        | none => vs
        | some oldI => halfSwap m ks (swapPos vs i oldI) (i + 1) c) = vs
      rw [hsk i key hk]
      show halfSwap m ks (swapPos vs i i) (i + 1) c = vs
      rw [swapPos_self]
      exact ih vs (i + 1)

lemma posOf_isSome_of_mem {K : Type} [DecidableEq K] {k : K} {l : List K}
    (h : k ∈ l) : ∃ p, posOf k l = some p := by
  cases hp : posOf k l with
  | none => exact absurd (posOf_eq_none_iff.1 hp) (fun hn => hn h)
  | some p => exact ⟨p, rfl⟩

lemma recompute_key_map {K V : Type} [DecidableEq K] (d : Dictionary K V)
    (hnd : d.keys.Nodup) (hbase : ∀ k, k ∉ d.keys → d.key_map k = none) :
    (recompute_map d).key_map = fun k => posOf k d.keys := by
  funext k
  show assignFrom d.key_map 0 d.keys k = posOf k d.keys
  by_cases hk : k ∈ d.keys
  · obtain ⟨p, hp⟩ := posOf_isSome_of_mem hk
    rw [assignFrom_of_posOf hnd hp, hp, Nat.zero_add]
  · rw [assignFrom_of_not_mem hk, hbase k hk, (posOf_eq_none_iff.2 hk).symm]

lemma sort_by_keys_keys {K V : Type} [LinearOrder K] [DecidableEq K] (d : Dictionary K V) :
    (sort_by_keys d).keys = List.insertionSort (· ≤ ·) d.keys := rfl

lemma sort_by_keys_values {K V : Type} [LinearOrder K] [DecidableEq K] (d : Dictionary K V) :
    (sort_by_keys d).values =
      halfSwap d.key_map (List.insertionSort (· ≤ ·) d.keys) d.values 0 (d.len / 2) := rfl

lemma sort_by_keys_len {K V : Type} [LinearOrder K] [DecidableEq K] (d : Dictionary K V) :
    (sort_by_keys d).len = d.len := rfl

lemma sort_by_keys_capacity {K V : Type} [LinearOrder K] [DecidableEq K] (d : Dictionary K V) :
    (sort_by_keys d).capacity = d.capacity := rfl

lemma sort_by_keys_key_map {K V : Type} [LinearOrder K] [DecidableEq K] (d : Dictionary K V) :
    (sort_by_keys d).key_map =
      assignFrom d.key_map 0 (List.insertionSort (· ≤ ·) d.keys) := rfl

lemma WF_sort_by_keys {K V : Type} [LinearOrder K] [DecidableEq K] {d : Dictionary K V}
    (hd : WF d) : WF (sort_by_keys d) := by
  obtain ⟨hlk, hlv, hnd, hmap⟩ := hd
  have hperm : (List.insertionSort (· ≤ ·) d.keys).Perm d.keys :=
    List.perm_insertionSort (· ≤ ·) d.keys
  have hnd' : (List.insertionSort (· ≤ ·) d.keys).Nodup := hperm.symm.nodup hnd
  have hbase : ∀ k, k ∉ List.insertionSort (· ≤ ·) d.keys → d.key_map k = none := by
    intro k hk
    rw [hmap k]
    exact posOf_eq_none_iff.2 (fun hm => hk (hperm.mem_iff.2 hm))
  have hmap' := recompute_key_map
    { d with
      keys := List.insertionSort (· ≤ ·) d.keys
      values := halfSwap d.key_map (List.insertionSort (· ≤ ·) d.keys) d.values 0 (d.len / 2) }
    hnd' hbase
  refine ⟨?_, ?_, hnd', ?_⟩
  · rw [sort_by_keys_keys, sort_by_keys_len, hperm.length_eq, hlk]
  · rw [sort_by_keys_values, sort_by_keys_len, halfSwap_length, hlv]
  · intro k
    have := congrFun hmap' k
    exact this

lemma insertionSort_of_sorted {K : Type} [LinearOrder K] {l : List K}
    (h : l.Sorted (· ≤ ·)) : List.insertionSort (· ≤ ·) l = l :=
  List.eq_of_perm_of_sorted (List.perm_insertionSort (· ≤ ·) l)
    (List.sorted_insertionSort (· ≤ ·) l) h

/-- Claim C10: on a dictionary built by appending pairwise-distinct keys,
calling `sort_by_keys` twice in a row yields exactly the same state (keys,
values, key map, len, capacity) as calling it once: the second key sort
leaves the already sorted keys in place, every swap of the value loop is a
swap of a position with itself, and recomputing the map reassigns the same
positions. -/
theorem c10_sort_by_keys_idempotent {K V : Type} [LinearOrder K] [DecidableEq K]
    (d : Dictionary K V) (hd : Built d) :
    (sort_by_keys (sort_by_keys d)).keys = (sort_by_keys d).keys ∧
    (sort_by_keys (sort_by_keys d)).values = (sort_by_keys d).values ∧
    (sort_by_keys (sort_by_keys d)).key_map = (sort_by_keys d).key_map ∧
    (sort_by_keys (sort_by_keys d)).len = (sort_by_keys d).len ∧
    (sort_by_keys (sort_by_keys d)).capacity = (sort_by_keys d).capacity := by
  have hwf1 : WF (sort_by_keys d) := WF_sort_by_keys hd.wf
  obtain ⟨hlk1, hlv1, hnd1, hmap1⟩ := hwf1
  have hsorted : (sort_by_keys d).keys.Sorted (· ≤ ·) := by
    rw [sort_by_keys_keys]
    exact List.sorted_insertionSort (· ≤ ·) d.keys
  have hfix : List.insertionSort (· ≤ ·) (sort_by_keys d).keys = (sort_by_keys d).keys :=
    insertionSort_of_sorted hsorted
  have hself : ∀ (i : Nat) (k : K), (sort_by_keys d).keys[i]? = some k →
      (sort_by_keys d).key_map k = some i := by
    intro i k hik
    rw [hmap1 k]
    exact getElem?_posOf hnd1 hik
  refine ⟨?_, ?_, ?_, rfl, rfl⟩
  · rw [sort_by_keys_keys, hfix]
  · rw [sort_by_keys_values, hfix, halfSwap_id hself]
  · rw [sort_by_keys_key_map, hfix]
    funext k
    by_cases hk : k ∈ (sort_by_keys d).keys
    · obtain ⟨p, hp⟩ := posOf_isSome_of_mem hk
      rw [assignFrom_of_posOf hnd1 hp, Nat.zero_add, hmap1 k, hp]
    · rw [assignFrom_of_not_mem hk, hmap1 k]

/-- Witness for C10 at the spec example: sorting the dictionary built from
(3,4), (1,7), (2,1), (5,9) by keys twice gives the same state as sorting it
once. -/
theorem c10_witness :
    Built exDict ∧
    ((sort_by_keys (sort_by_keys exDict)).keys = (sort_by_keys exDict).keys ∧
     (sort_by_keys (sort_by_keys exDict)).values = (sort_by_keys exDict).values ∧
     (sort_by_keys (sort_by_keys exDict)).key_map = (sort_by_keys exDict).key_map ∧
     (sort_by_keys (sort_by_keys exDict)).len = (sort_by_keys exDict).len ∧
     (sort_by_keys (sort_by_keys exDict)).capacity = (sort_by_keys exDict).capacity) :=
  ⟨exDict_built, c10_sort_by_keys_idempotent exDict exDict_built⟩

/-- Claim C2 (refuted by the code): `sort_by_keys` is claimed to sort the
keys ascending while preserving each key's associated value, for every
dictionary built by appending pairwise-distinct keys.  On the dictionary
built from (2,20), (3,30), (1,10) — whose sorted arrangement is a 3-cycle
of the original — the keys do come out ascending, but `get(2)` changes from
`some 20` to `some 30`: the value-relocation loop of the source only swaps
positions below `len / 2` against their old positions and its assumption
"once we reach mid point, all are correct" fails, so the pairing is
broken. -/
theorem c2_sort_by_keys_breaks_pairing :
    get (buildList [(2,20),(3,30),(1,10)] : Dictionary Nat Nat) 2 = some 20 ∧
    (sort_by_keys (buildList [(2,20),(3,30),(1,10)] : Dictionary Nat Nat)).keys =
      [1, 2, 3] ∧
    get (sort_by_keys (buildList [(2,20),(3,30),(1,10)] : Dictionary Nat Nat)) 2 =
      some 30 := by
  decide

/-- Claim C9: on a dictionary built by appending pairwise-distinct keys,
converting into the consuming iterator and back yields a dictionary that is
equal under the `PartialEq` of the source (same value sequence, same key
sequence, same key map; `len` and `capacity` are not compared). -/
theorem c9_round_trip {K V : Type} [DecidableEq K] (d : Dictionary K V) (hd : Built d) :
    dictEq (DictIter.intoDict (Dictionary.intoIter d)) d := by
  obtain ⟨hlk, hlv, hnd, hmap⟩ := hd.wf
  have hlen : d.keys.length ≤ d.values.length := by omega
  have hlen2 : d.values.length ≤ d.keys.length := by omega
  have hkeys : (Dictionary.intoIter d).pairs.map Prod.fst = d.keys := by
    simp only [Dictionary.intoIter, DictIter.pairs]
    exact List.map_fst_zip _ _ hlen
  have hvals : (Dictionary.intoIter d).pairs.map Prod.snd = d.values := by
    simp only [Dictionary.intoIter, DictIter.pairs]
    exact List.map_snd_zip _ _ hlen2
  refine ⟨?_, ?_, ?_⟩
  · show (Dictionary.intoIter d).pairs.map Prod.snd = d.values
    exact hvals
  · show (Dictionary.intoIter d).pairs.map Prod.fst = d.keys
    exact hkeys
  · show assignFrom (fun _ => none) 0 ((Dictionary.intoIter d).pairs.map Prod.fst) =
      d.key_map
    rw [hkeys]
    funext k
    by_cases hk : k ∈ d.keys
    · obtain ⟨p, hp⟩ := posOf_isSome_of_mem hk
      rw [assignFrom_of_posOf hnd hp, Nat.zero_add, hmap k, hp]
    · rw [assignFrom_of_not_mem hk, hmap k, posOf_eq_none_iff.2 hk]

/-- Witness for C9: the round trip on the dictionary built from (1,10),
(2,20) reproduces an equal dictionary. -/
theorem c9_witness :
    Built dPair ∧ dictEq (DictIter.intoDict (Dictionary.intoIter dPair)) dPair :=
  ⟨dPair_built, c9_round_trip dPair dPair_built⟩

/-! ### Facts about `swapAdj` and the bubble pass of `sort_by_values` -/

lemma swapAdj_length {α : Type} : ∀ (l : List α) (j : Nat), (swapAdj l j).length = l.length := by
  intro l
  induction l with
  | nil => intro j; cases j <;> rfl
  | cons x t ih =>
    intro j
    cases j with
    | zero =>
      cases t with
      | nil => rfl
      | cons y s => rfl
    | succ n =>
      show (x :: swapAdj t n).length = (x :: t).length
      simp [ih n]

lemma swapAdj_perm {α : Type} : ∀ (l : List α) (j : Nat), (swapAdj l j).Perm l := by
  intro l
  induction l with
  | nil => intro j; cases j <;> exact List.Perm.refl _
  | cons x t ih =>
    intro j
    cases j with
    | zero =>
      cases t with
      | nil => exact List.Perm.refl _
      | cons y s => exact List.Perm.swap x y s
    | succ n =>
      show (x :: swapAdj t n).Perm (x :: t)
      exact (ih n).cons x

lemma swapAdj_getElem?_of_lt {α : Type} :
    ∀ (l : List α) (j m : Nat), m < j → (swapAdj l j)[m]? = l[m]? := by
  intro l
  induction l with
  | nil => intro j m _; cases j <;> rfl
  | cons x t ih =>
    intro j m hm
    match j, m with
    | j + 1, 0 =>
      show (x :: swapAdj t j)[0]? = (x :: t)[0]?
      simp
    | j + 1, m + 1 =>
      show (x :: swapAdj t j)[m + 1]? = (x :: t)[m + 1]?
      simp only [List.getElem?_cons_succ]
      exact ih j m (by omega)

lemma swapAdj_getElem?_of_gt {α : Type} :
    ∀ (l : List α) (j m : Nat), j + 1 < m → (swapAdj l j)[m]? = l[m]? := by
  intro l
  induction l with
  | nil => intro j m _; cases j <;> rfl
  | cons x t ih =>
    intro j m hm
    cases j with
    | zero =>
      cases t with
      | nil => rfl
      | cons y s =>
        match m, hm with
        | m + 2, _ =>
          show (y :: x :: s)[m + 2]? = (x :: y :: s)[m + 2]?
          simp
    | succ n =>
      match m, hm with
      | m + 1, _ =>
        show (x :: swapAdj t n)[m + 1]? = (x :: t)[m + 1]?
        simp only [List.getElem?_cons_succ]
        exact ih n m (by omega)

lemma swapAdj_getElem?_fst {α : Type} :
    ∀ (l : List α) (j : Nat), j + 1 < l.length → (swapAdj l j)[j]? = l[j + 1]? := by
  intro l
  induction l with
  | nil => intro j h; simp at h
  | cons x t ih =>
    intro j h
    cases j with
    | zero =>
      cases t with
      | nil => simp at h
      | cons y s =>
        show (y :: x :: s)[0]? = (x :: y :: s)[0 + 1]?
        simp
    | succ n =>
      show (x :: swapAdj t n)[n + 1]? = (x :: t)[n + 2]?
      simp only [List.getElem?_cons_succ]
      exact ih n (by simpa using h)

lemma swapAdj_getElem?_snd {α : Type} :
    ∀ (l : List α) (j : Nat), j + 1 < l.length → (swapAdj l j)[j + 1]? = l[j]? := by
  intro l
  induction l with
  | nil => intro j h; simp at h
  | cons x t ih =>
    intro j h
    cases j with
    | zero =>
      cases t with
      | nil => simp at h
      | cons y s =>
        show (y :: x :: s)[0 + 1]? = (x :: y :: s)[0]?
        simp
    | succ n =>
      show (x :: swapAdj t n)[n + 2]? = (x :: t)[n + 1]?
      simp only [List.getElem?_cons_succ]
      exact ih n (by simpa using h)

lemma zip_swapAdj {α β : Type} :
    ∀ (ks : List α) (vs : List β) (j : Nat), ks.length = vs.length →
      (swapAdj ks j).zip (swapAdj vs j) = swapAdj (ks.zip vs) j := by
  intro ks
  induction ks with
  | nil =>
    intro vs j h
    have : vs = [] := List.eq_nil_of_length_eq_zero h.symm
    subst this
    cases j <;> rfl
  | cons x t ih =>
    intro vs j h
    cases vs with
    | nil => simp at h
    | cons y s =>
      simp only [List.length_cons, Nat.add_right_cancel_iff] at h
      cases j with
      | zero =>
        cases t with
        | nil =>
          have : s = [] := List.eq_nil_of_length_eq_zero h.symm
          subst this
          rfl
        | cons x2 t2 =>
          cases s with
          | nil => simp at h
          | cons y2 s2 => rfl
      | succ n =>
        show ((x, y) :: (swapAdj t n).zip (swapAdj s n)) = (x, y) :: swapAdj (t.zip s) n
        rw [ih s n h]

lemma sbvPass_flag {K V : Type} [LinearOrder V] :
    ∀ (steps : Nat) (ks : List K) (vs : List V) (j : Nat),
      (sbvPass ks vs j steps true).2.2 = true := by
  intro steps
  induction steps with
  | zero => intro ks vs j; rfl
  | succ s ih =>
    intro ks vs j
    rw [sbvPass]
    cases h1 : vs[j]? with
    | none => rfl
    | some a =>
      cases h2 : vs[j + 1]? with
      | none => rfl
      | some b =>
        show (if b < a then sbvPass (swapAdj ks j) (swapAdj vs j) (j + 1) s true
          else sbvPass ks vs (j + 1) s true).2.2 = true
        by_cases hba : b < a
        · rw [if_pos hba]
          exact ih _ _ _
        · rw [if_neg hba]
          exact ih _ _ _

lemma sbvPass_lengths {K V : Type} [LinearOrder V] :
    ∀ (steps : Nat) (ks : List K) (vs : List V) (j : Nat) (sw : Bool),
      (sbvPass ks vs j steps sw).1.length = ks.length ∧
      (sbvPass ks vs j steps sw).2.1.length = vs.length := by
  intro steps
  induction steps with
  | zero => intro ks vs j sw; exact ⟨rfl, rfl⟩
  | succ s ih =>
    intro ks vs j sw
    rw [sbvPass]
    cases h1 : vs[j]? with
    | none => exact ⟨rfl, rfl⟩
    | some a =>
      cases h2 : vs[j + 1]? with
      | none => exact ⟨rfl, rfl⟩
      | some b =>
        show ((if b < a then sbvPass (swapAdj ks j) (swapAdj vs j) (j + 1) s true
          else sbvPass ks vs (j + 1) s sw).1.length = ks.length ∧
          (if b < a then sbvPass (swapAdj ks j) (swapAdj vs j) (j + 1) s true
          else sbvPass ks vs (j + 1) s sw).2.1.length = vs.length)
        by_cases hba : b < a
        · rw [if_pos hba]
          obtain ⟨hk, hv⟩ := ih (swapAdj ks j) (swapAdj vs j) (j + 1) true
          rw [hk, hv, swapAdj_length, swapAdj_length]
          exact ⟨rfl, rfl⟩
        · rw [if_neg hba]
          exact ih ks vs (j + 1) sw

lemma sbvPass_zip_perm {K V : Type} [LinearOrder V] :
    ∀ (steps : Nat) (ks : List K) (vs : List V) (j : Nat) (sw : Bool),
      ks.length = vs.length →
      ((sbvPass ks vs j steps sw).1.zip (sbvPass ks vs j steps sw).2.1).Perm
        (ks.zip vs) := by
  intro steps
  induction steps with
  | zero => intro ks vs j sw _; exact List.Perm.refl _
  | succ s ih =>
    intro ks vs j sw h
    rw [sbvPass]
    cases h1 : vs[j]? with
    | none => exact List.Perm.refl _
    | some a =>
      cases h2 : vs[j + 1]? with
      | none => exact List.Perm.refl _
      | some b =>
        show ((if b < a then sbvPass (swapAdj ks j) (swapAdj vs j) (j + 1) s true
          else sbvPass ks vs (j + 1) s sw).1.zip
          (if b < a then sbvPass (swapAdj ks j) (swapAdj vs j) (j + 1) s true
          else sbvPass ks vs (j + 1) s sw).2.1).Perm (ks.zip vs)
        by_cases hba : b < a
        · rw [if_pos hba]
          have hl : (swapAdj ks j).length = (swapAdj vs j).length := by
            rw [swapAdj_length, swapAdj_length, h]
          have hp := ih (swapAdj ks j) (swapAdj vs j) (j + 1) true hl
          rw [zip_swapAdj ks vs j h] at hp
          exact hp.trans (swapAdj_perm _ j)
        · rw [if_neg hba]
          exact ih ks vs (j + 1) sw h

lemma sbvPass_below {K V : Type} [LinearOrder V] :
    ∀ (steps : Nat) (ks : List K) (vs : List V) (j : Nat) (sw : Bool) (m : Nat),
      m < j → (sbvPass ks vs j steps sw).2.1[m]? = vs[m]? := by
  intro steps
  induction steps with
  | zero => intro ks vs j sw m _; rfl
  | succ s ih =>
    intro ks vs j sw m hm
    rw [sbvPass]
    cases h1 : vs[j]? with
    | none => rfl
    | some a =>
      cases h2 : vs[j + 1]? with
      | none => rfl
      | some b =>
        show (if b < a then sbvPass (swapAdj ks j) (swapAdj vs j) (j + 1) s true
          else sbvPass ks vs (j + 1) s sw).2.1[m]? = vs[m]?
        by_cases hba : b < a
        · rw [if_pos hba, ih _ _ (j + 1) true m (by omega)]
          exact swapAdj_getElem?_of_lt vs j m hm
        · rw [if_neg hba]
          exact ih ks vs (j + 1) sw m (by omega)

lemma sbvPass_suffix {K V : Type} [LinearOrder V] :
    ∀ (steps : Nat) (ks : List K) (vs : List V) (j : Nat) (sw : Bool) (m : Nat),
      j + steps < m → (sbvPass ks vs j steps sw).2.1[m]? = vs[m]? := by
  intro steps
  induction steps with
  | zero => intro ks vs j sw m _; rfl
  | succ s ih =>
    intro ks vs j sw m hm
    rw [sbvPass]
    cases h1 : vs[j]? with
    | none => rfl
    | some a =>
      cases h2 : vs[j + 1]? with
      | none => rfl
      | some b =>
        show (if b < a then sbvPass (swapAdj ks j) (swapAdj vs j) (j + 1) s true
          else sbvPass ks vs (j + 1) s sw).2.1[m]? = vs[m]?
        by_cases hba : b < a
        · rw [if_pos hba, ih _ _ (j + 1) true m (by omega)]
          exact swapAdj_getElem?_of_gt vs j m (by omega)
        · rw [if_neg hba]
          exact ih ks vs (j + 1) sw m (by omega)

lemma sbvPass_source {K V : Type} [LinearOrder V] :
    ∀ (steps : Nat) (ks : List K) (vs : List V) (j : Nat) (sw : Bool) (m : Nat),
      j ≤ m → m ≤ j + steps →
      ∃ m', j ≤ m' ∧ m' ≤ j + steps ∧ (sbvPass ks vs j steps sw).2.1[m]? = vs[m']? := by
  intro steps
  induction steps with
  | zero =>
    intro ks vs j sw m h1 h2
    exact ⟨m, h1, h2, rfl⟩
  | succ s ih =>
    intro ks vs j sw m hjm hms
    rw [sbvPass]
    cases h1 : vs[j]? with
    | none => exact ⟨m, hjm, hms, rfl⟩
    | some a =>
      cases h2 : vs[j + 1]? with
      | none => exact ⟨m, hjm, hms, rfl⟩
      | some b =>
        have hlen : j + 1 < vs.length := (List.getElem?_eq_some_iff.1 h2).1
        show ∃ m', j ≤ m' ∧ m' ≤ j + (s + 1) ∧
          (if b < a then sbvPass (swapAdj ks j) (swapAdj vs j) (j + 1) s true
            else sbvPass ks vs (j + 1) s sw).2.1[m]? = vs[m']?
        by_cases hba : b < a
        · rw [if_pos hba]
          by_cases hmj : m = j
          · subst hmj
            refine ⟨m + 1, by omega, by omega, ?_⟩
            rw [sbvPass_below s _ _ (m + 1) true m (by omega)]
            exact swapAdj_getElem?_fst vs m hlen
          · obtain ⟨m', hm1, hm2, hm3⟩ := ih (swapAdj ks j) (swapAdj vs j) (j + 1) true m
              (by omega) (by omega)
            by_cases hmj' : m' = j + 1
            · subst hmj'
              refine ⟨j, by omega, by omega, ?_⟩
              rw [hm3]
              exact swapAdj_getElem?_snd vs j hlen
            · refine ⟨m', by omega, by omega, ?_⟩
              rw [hm3]
              exact swapAdj_getElem?_of_gt vs j m' (by omega)
        · rw [if_neg hba]
          by_cases hmj : m = j
          · subst hmj
            exact ⟨m, by omega, by omega, sbvPass_below s _ _ (m + 1) sw m (by omega)⟩
          · obtain ⟨m', hm1, hm2, hm3⟩ := ih ks vs (j + 1) sw m (by omega) (by omega)
            exact ⟨m', by omega, by omega, hm3⟩

lemma sbvPass_max {K V : Type} [LinearOrder V] :
    ∀ (steps : Nat) (ks : List K) (vs : List V) (j : Nat) (sw : Bool) (m : Nat) (a c : V),
      j ≤ m → m ≤ j + steps → vs[m]? = some a →
      (sbvPass ks vs j steps sw).2.1[j + steps]? = some c → a ≤ c := by
  intro steps
  induction steps with
  | zero =>
    intro ks vs j sw m a c h1 h2 hm hc
    have hmj : m = j := by omega
    subst hmj
    rw [Nat.add_zero] at hc
    have : some a = some c := hm.symm.trans hc
    exact le_of_eq (Option.some.inj this)
  | succ s ih =>
    intro ks vs j sw m a c hjm hms hma hc
    rw [sbvPass] at hc
    cases h1 : vs[j]? with
    | none =>
      have hlj : vs.length ≤ j := List.getElem?_eq_none_iff.1 h1
      have hml : m < vs.length := (List.getElem?_eq_some_iff.1 hma).1
      omega
    | some x =>
      cases h2 : vs[j + 1]? with
      | none =>
        rw [h1, h2] at hc
        have hle : vs.length ≤ j + 1 := List.getElem?_eq_none_iff.1 h2
        have hcl : j + (s + 1) < vs.length := by
          have := (List.getElem?_eq_some_iff.1 hc).1
          exact this
        omega
      | some y =>
        rw [h1, h2] at hc
        rw [show j + (s + 1) = (j + 1) + s by omega] at hc
        change (if y < x then sbvPass (swapAdj ks j) (swapAdj vs j) (j + 1) s true
          else sbvPass ks vs (j + 1) s sw).2.1[j + 1 + s]? = some c at hc
        by_cases hba : y < x
        · rw [if_pos hba] at hc
          have hlen : j + 1 < vs.length := (List.getElem?_eq_some_iff.1 h2).1
          have hsnd : (swapAdj vs j)[j + 1]? = some x :=
            (swapAdj_getElem?_snd vs j hlen).trans h1
          have hxc : x ≤ c :=
            ih (swapAdj ks j) (swapAdj vs j) (j + 1) true (j + 1) x c (by omega)
              (by omega) hsnd hc
          by_cases hmj : m = j
          · subst hmj
            have hax : a = x := Option.some.inj (hma.symm.trans h1)
            exact hax ▸ hxc
          · by_cases hmj1 : m = j + 1
            · subst hmj1
              have hay : a = y := Option.some.inj (hma.symm.trans h2)
              exact hay ▸ (le_of_lt hba).trans hxc
            · have hmv : (swapAdj vs j)[m]? = some a :=
                (swapAdj_getElem?_of_gt vs j m (by omega)).trans hma
              exact ih (swapAdj ks j) (swapAdj vs j) (j + 1) true m a c (by omega)
                (by omega) hmv hc
        · rw [if_neg hba] at hc
          have hxy : x ≤ y := le_of_not_lt hba
          by_cases hmj : m = j
          · rw [hmj] at hma
            have hax : a = x := Option.some.inj (hma.symm.trans h1)
            have hyc : y ≤ c :=
              ih ks vs (j + 1) sw (j + 1) y c (by omega) (by omega) h2 hc
            exact hax ▸ hxy.trans hyc
          · exact ih ks vs (j + 1) sw m a c (by omega) (by omega) hma hc

lemma sbvPass_noswap {K V : Type} [LinearOrder V] :
    ∀ (steps : Nat) (ks : List K) (vs : List V) (j : Nat),
      (sbvPass ks vs j steps false).2.2 = false →
      (sbvPass ks vs j steps false).1 = ks ∧ (sbvPass ks vs j steps false).2.1 = vs ∧
      ∀ m a c, j ≤ m → m < j + steps → vs[m]? = some a → vs[m + 1]? = some c → a ≤ c := by
  intro steps
  induction steps with
  | zero =>
    intro ks vs j _
    exact ⟨rfl, rfl, fun m a c h1 h2 _ _ => absurd h2 (by omega)⟩
  | succ s ih =>
    intro ks vs j hflag
    rw [sbvPass] at hflag ⊢
    cases h1 : vs[j]? with
    | none =>
      refine ⟨rfl, rfl, fun m a c hm1 hm2 hma hmc => ?_⟩
      have hlj : vs.length ≤ j := List.getElem?_eq_none_iff.1 h1
      have hml : m < vs.length := (List.getElem?_eq_some_iff.1 hma).1
      omega
    | some x =>
      cases h2 : vs[j + 1]? with
      | none =>
        refine ⟨rfl, rfl, fun m a c hm1 hm2 hma hmc => ?_⟩
        have hlj : vs.length ≤ j + 1 := List.getElem?_eq_none_iff.1 h2
        have hml : m + 1 < vs.length := (List.getElem?_eq_some_iff.1 hmc).1
        omega
      | some y =>
        rw [h1, h2] at hflag
        change (if y < x then sbvPass (swapAdj ks j) (swapAdj vs j) (j + 1) s true
          else sbvPass ks vs (j + 1) s false).2.2 = false at hflag
        show ((if y < x then sbvPass (swapAdj ks j) (swapAdj vs j) (j + 1) s true
          else sbvPass ks vs (j + 1) s false).1 = ks ∧
          (if y < x then sbvPass (swapAdj ks j) (swapAdj vs j) (j + 1) s true
          else sbvPass ks vs (j + 1) s false).2.1 = vs ∧
          ∀ m a c, j ≤ m → m < j + (s + 1) → vs[m]? = some a → vs[m + 1]? = some c →
            a ≤ c)
        by_cases hba : y < x
        · rw [if_pos hba] at hflag
          have := sbvPass_flag s (swapAdj ks j) (swapAdj vs j) (j + 1)
          rw [hflag] at this
          exact absurd this (by simp)
        · rw [if_neg hba] at hflag ⊢
          obtain ⟨hk, hv, hsort⟩ := ih ks vs (j + 1) hflag
          refine ⟨hk, hv, fun m a c hm1 hm2 hma hmc => ?_⟩
          by_cases hmj : m = j
          · subst hmj
            have hax : a = x := Option.some.inj (hma.symm.trans h1)
            have hcy : c = y := Option.some.inj (hmc.symm.trans h2)
            rw [hax, hcy]
            exact le_of_not_lt hba
          · exact hsort m a c (by omega) (by omega) hma hmc

lemma sbvLoop_lengths {K V : Type} [LinearOrder V] :
    ∀ (r : Nat) (ks : List K) (vs : List V),
      (sbvLoop ks vs r).1.length = ks.length ∧ (sbvLoop ks vs r).2.length = vs.length := by
  intro r
  induction r with
  | zero => intro ks vs; exact ⟨rfl, rfl⟩
  | succ r ih =>
    intro ks vs
    obtain ⟨hk, hv⟩ := sbvPass_lengths r ks vs 0 false
    rw [sbvLoop]
    by_cases hf : (sbvPass ks vs 0 r false).2.2
    · rw [if_pos hf]
      obtain ⟨hk2, hv2⟩ := ih (sbvPass ks vs 0 r false).1 (sbvPass ks vs 0 r false).2.1
      exact ⟨hk2.trans hk, hv2.trans hv⟩
    · rw [if_neg hf]
      exact ⟨hk, hv⟩

lemma sbvLoop_zip_perm {K V : Type} [LinearOrder V] :
    ∀ (r : Nat) (ks : List K) (vs : List V), ks.length = vs.length →
      ((sbvLoop ks vs r).1.zip (sbvLoop ks vs r).2).Perm (ks.zip vs) := by
  intro r
  induction r with
  | zero => intro ks vs _; exact List.Perm.refl _
  | succ r ih =>
    intro ks vs h
    obtain ⟨hk, hv⟩ := sbvPass_lengths r ks vs 0 false
    have hpp := sbvPass_zip_perm r ks vs 0 false h
    rw [sbvLoop]
    by_cases hf : (sbvPass ks vs 0 r false).2.2
    · rw [if_pos hf]
      exact (ih (sbvPass ks vs 0 r false).1 (sbvPass ks vs 0 r false).2.1
        (by rw [hk, hv, h])).trans hpp
    · rw [if_neg hf]
      exact hpp

lemma sbvLoop_sorted {K V : Type} [LinearOrder V] :
    ∀ (r : Nat) (ks : List K) (vs : List V),
      (∀ m a c, r ≤ m → vs[m]? = some a → vs[m + 1]? = some c → a ≤ c) →
      (∀ p q a c, p < r → r ≤ q → vs[p]? = some a → vs[q]? = some c → a ≤ c) →
      ∀ m a c, (sbvLoop ks vs r).2[m]? = some a → (sbvLoop ks vs r).2[m + 1]? = some c →
        a ≤ c := by
  intro r
  induction r with
  | zero =>
    intro ks vs hSS1 _ m a c hma hmc
    exact hSS1 m a c (Nat.zero_le m) hma hmc
  | succ r ih =>
    intro ks vs hSS1 hSS2 m a c
    rw [sbvLoop]
    by_cases hf : (sbvPass ks vs 0 r false).2.2
    · rw [if_pos hf]
      have hSS1' : ∀ m a c, r ≤ m → (sbvPass ks vs 0 r false).2.1[m]? = some a →
          (sbvPass ks vs 0 r false).2.1[m + 1]? = some c → a ≤ c := by
        intro m a c hrm hma hmc
        rw [sbvPass_suffix r ks vs 0 false (m + 1) (by omega)] at hmc
        by_cases hm : r < m
        · rw [sbvPass_suffix r ks vs 0 false m (by omega)] at hma
          exact hSS1 m a c (by omega) hma hmc
        · obtain ⟨m', hm'0, hm'r, hsrc⟩ :=
            sbvPass_source r ks vs 0 false m (Nat.zero_le m) (by omega)
          rw [hsrc] at hma
          exact hSS2 m' (m + 1) a c (by omega) (by omega) hma hmc
      have hSS2' : ∀ p q a c, p < r → r ≤ q → (sbvPass ks vs 0 r false).2.1[p]? = some a →
          (sbvPass ks vs 0 r false).2.1[q]? = some c → a ≤ c := by
        intro p q a c hpr hrq hpa hqc
        obtain ⟨p', hp'0, hp'r, hpsrc⟩ :=
          sbvPass_source r ks vs 0 false p (Nat.zero_le p) (by omega)
        rw [hpsrc] at hpa
        by_cases hq : r < q
        · rw [sbvPass_suffix r ks vs 0 false q (by omega)] at hqc
          exact hSS2 p' q a c (by omega) (by omega) hpa hqc
        · have hqr : q = r := by omega
          rw [hqr] at hqc
          have hqc' : (sbvPass ks vs 0 r false).2.1[0 + r]? = some c := by
            rw [Nat.zero_add]
            exact hqc
          exact sbvPass_max r ks vs 0 false p' a c (Nat.zero_le p') (by omega) hpa hqc'
      exact ih (sbvPass ks vs 0 r false).1 (sbvPass ks vs 0 r false).2.1 hSS1' hSS2' m a c
    · rw [if_neg hf]
      obtain ⟨hk, hv, hsort⟩ := sbvPass_noswap r ks vs 0 (by simpa using hf)
      show ((sbvPass ks vs 0 r false).1, (sbvPass ks vs 0 r false).2.1).2[m]? = some a →
        ((sbvPass ks vs 0 r false).1, (sbvPass ks vs 0 r false).2.1).2[m + 1]? = some c →
        a ≤ c
      rw [show ((sbvPass ks vs 0 r false).1, (sbvPass ks vs 0 r false).2.1).2 =
        (sbvPass ks vs 0 r false).2.1 from rfl, hv]
      intro hma hmc
      by_cases hm : m < r
      · exact hsort m a c (Nat.zero_le m) (by omega) hma hmc
      · by_cases hm2 : m = r
        · exact hSS2 m (m + 1) a c (by omega) (by omega) hma hmc
        · exact hSS1 m a c (by omega) hma hmc

lemma sort_by_values_keys {K V : Type} [DecidableEq K] [LinearOrder V] (d : Dictionary K V) :
    (sort_by_values d).keys = (sbvLoop d.keys d.values d.len).1 := rfl

lemma sort_by_values_values {K V : Type} [DecidableEq K] [LinearOrder V] (d : Dictionary K V) :
    (sort_by_values d).values = (sbvLoop d.keys d.values d.len).2 := rfl

lemma sort_by_values_len {K V : Type} [DecidableEq K] [LinearOrder V] (d : Dictionary K V) :
    (sort_by_values d).len = d.len := rfl

lemma sort_by_values_capacity {K V : Type} [DecidableEq K] [LinearOrder V]
    (d : Dictionary K V) : (sort_by_values d).capacity = d.capacity := rfl

lemma WF_sort_by_values {K V : Type} [DecidableEq K] [LinearOrder V] {d : Dictionary K V}
    (hd : WF d) :
    WF (sort_by_values d) ∧
    ((sort_by_values d).keys.zip (sort_by_values d).values).Perm
      (d.keys.zip d.values) := by
  obtain ⟨hlk, hlv, hnd, hmap⟩ := hd
  have hlen : d.keys.length = d.values.length := by omega
  have hperm := sbvLoop_zip_perm d.len d.keys d.values hlen
  obtain ⟨hLk, hLv⟩ := sbvLoop_lengths d.len d.keys d.values
  have hlen' : (sbvLoop d.keys d.values d.len).1.length =
      (sbvLoop d.keys d.values d.len).2.length := by
    rw [hLk, hLv, hlen]
  have hkperm : (sbvLoop d.keys d.values d.len).1.Perm d.keys := by
    have hmf := hperm.map Prod.fst
    rw [List.map_fst_zip d.keys d.values (le_of_eq hlen)] at hmf
    rw [List.map_fst_zip _ _ (le_of_eq hlen')] at hmf
    exact hmf
  have hnd' : (sbvLoop d.keys d.values d.len).1.Nodup := hkperm.symm.nodup hnd
  have hbase : ∀ k, k ∉ (sbvLoop d.keys d.values d.len).1 → d.key_map k = none := by
    intro k hk
    rw [hmap k]
    exact posOf_eq_none_iff.2 (fun hm => hk (hkperm.mem_iff.2 hm))
  have hmap' := recompute_key_map
    { d with
      keys := (sbvLoop d.keys d.values d.len).1
      values := (sbvLoop d.keys d.values d.len).2 } hnd' hbase
  refine ⟨⟨?_, ?_, hnd', ?_⟩, hperm⟩
  · rw [sort_by_values_keys, sort_by_values_len, hLk, hlk]
  · rw [sort_by_values_values, sort_by_values_len, hLv, hlv]
  · intro k
    exact congrFun hmap' k

lemma getElem?_zip_iff {α β : Type} :
    ∀ (l1 : List α) (l2 : List β) (i : Nat) (a : α) (b : β),
      (l1.zip l2)[i]? = some (a, b) ↔ l1[i]? = some a ∧ l2[i]? = some b := by
  intro l1
  induction l1 with
  | nil => intro l2 i a b; simp
  | cons x t ih =>
    intro l2 i a b
    cases l2 with
    | nil => simp
    | cons y s =>
      match i with
      | 0 => simp [Prod.ext_iff]
      | i + 1 =>
        simp only [List.zip_cons_cons, List.getElem?_cons_succ]
        exact ih s i a b

lemma get_some_iff_mem_zip {K V : Type} [DecidableEq K] {d : Dictionary K V} (hd : WF d)
    (k : K) (v : V) : get d k = some v ↔ (k, v) ∈ d.keys.zip d.values := by
  obtain ⟨hlk, hlv, hnd, hmap⟩ := hd
  constructor
  · intro hg
    rw [get, hmap k] at hg
    cases hp : posOf k d.keys with
    | none =>
      rw [hp] at hg
      simp only [Option.none_bind] at hg
      exact Option.noConfusion hg
    | some i =>
      rw [hp] at hg
      simp only [Option.some_bind] at hg
      have hk := posOf_getElem? hp
      exact List.mem_iff_getElem?.2 ⟨i, (getElem?_zip_iff _ _ i k v).2 ⟨hk, hg⟩⟩
  · intro hm
    obtain ⟨i, hi⟩ := List.mem_iff_getElem?.1 hm
    obtain ⟨hk, hv⟩ := (getElem?_zip_iff _ _ i k v).1 hi
    rw [get, hmap k, getElem?_posOf hnd hk]
    simpa using hv

lemma zip_fst_nodup_unique {K V : Type} :
    ∀ (l : List (K × V)), (l.map Prod.fst).Nodup →
      ∀ (k : K) (v₁ v₂ : V), (k, v₁) ∈ l → (k, v₂) ∈ l → v₁ = v₂ := by
  intro l
  induction l with
  | nil => intro _ k v₁ v₂ h _; cases h
  | cons p t ih =>
    intro hnd k v₁ v₂ h1 h2
    simp only [List.map_cons, List.nodup_cons] at hnd
    cases h1 with
    | head =>
      cases h2 with
      | head => rfl
      | tail _ hm => exact absurd (List.mem_map_of_mem Prod.fst hm) hnd.1
    | tail _ hm1 =>
      cases h2 with
      | head => exact absurd (List.mem_map_of_mem Prod.fst hm1) hnd.1
      | tail _ hm2 => exact ih hnd.2 k v₁ v₂ hm1 hm2

lemma sorted_of_adjacent {β : Type} [LinearOrder β] {l : List β}
    (h : ∀ m a c, l[m]? = some a → l[m + 1]? = some c → a ≤ c) :
    l.Sorted (· ≤ ·) := by
  have hstep : ∀ (n i : Nat) (a c : β), l[i]? = some a → l[i + n + 1]? = some c → a ≤ c := by
    intro n
    induction n with
    | zero =>
      intro i a c ha hc
      exact h i a c ha (by simpa using hc)
    | succ n ihn =>
      intro i a c ha hc
      have hlt : i + n + 1 < l.length := by
        have h2 := (List.getElem?_eq_some_iff.1 hc).1
        omega
      have hb := List.getElem?_eq_getElem hlt
      refine (ihn i a _ ha hb).trans (h (i + n + 1) _ c hb ?_)
      rw [show i + n + 1 + 1 = i + (n + 1) + 1 by omega]
      exact hc
  refine List.pairwise_iff_get.2 fun i j hij => ?_
  have hij' : (i : Nat) < (j : Nat) := hij
  apply hstep ((j : Nat) - (i : Nat) - 1) (i : Nat) (l.get i) (l.get j)
  · rw [List.getElem?_eq_getElem i.isLt]
    simp [List.get_eq_getElem]
  · rw [show (i : Nat) + ((j : Nat) - (i : Nat) - 1) + 1 = (j : Nat) by omega]
    rw [List.getElem?_eq_getElem j.isLt]
    simp [List.get_eq_getElem]

/-- Claim C3: on a dictionary built by appending pairwise-distinct keys,
`sort_by_values` permutes the (key, value) pairs so that the value sequence
becomes ascending, each key still maps to its original value (`get` is
unchanged on every key), and the recomputed key map stores exactly the new
position of each key. -/
theorem c3_sort_by_values_correct {K V : Type} [DecidableEq K] [LinearOrder V]
    (d : Dictionary K V) (hd : Built d) :
    ((sort_by_values d).keys.zip (sort_by_values d).values).Perm (d.keys.zip d.values) ∧
    (sort_by_values d).values.Sorted (· ≤ ·) ∧
    (∀ k, get (sort_by_values d) k = get d k) ∧
    (∀ k, (sort_by_values d).key_map k = posOf k (sort_by_values d).keys) := by
  have hwf := hd.wf
  obtain ⟨hwf', hperm⟩ := WF_sort_by_values hwf
  obtain ⟨hlk, hlv, hnd, hmap⟩ := id hwf
  obtain ⟨hlk', hlv', hnd', hmap'⟩ := id hwf'
  have hkperm : (sort_by_values d).keys.Perm d.keys := by
    have hmf := hperm.map Prod.fst
    rw [List.map_fst_zip _ _ (le_of_eq (by omega :
      (sort_by_values d).keys.length = (sort_by_values d).values.length))] at hmf
    rw [List.map_fst_zip d.keys d.values (le_of_eq (by omega))] at hmf
    exact hmf
  refine ⟨hperm, ?_, ?_, hmap'⟩
  · apply sorted_of_adjacent
    intro m a c hma hmc
    rw [sort_by_values_values] at hma hmc
    refine sbvLoop_sorted d.len d.keys d.values ?_ ?_ m a c hma hmc
    · intro m a c hrm hma2 hmc2
      have h1 := (List.getElem?_eq_some_iff.1 hmc2).1
      exact absurd h1 (by omega)
    · intro p q a c hpr hrq hpa hqc
      have h1 := (List.getElem?_eq_some_iff.1 hqc).1
      exact absurd h1 (by omega)
  · intro k
    by_cases hk : k ∈ (sort_by_values d).keys
    · obtain ⟨p, hp⟩ := posOf_isSome_of_mem hk
      have hkp := posOf_getElem? hp
      have hplt : p < (sort_by_values d).keys.length := (List.getElem?_eq_some_iff.1 hkp).1
      have hvlt : p < (sort_by_values d).values.length := by omega
      have hveq := List.getElem?_eq_getElem hvlt
      have hzip : (k, (sort_by_values d).values.get ⟨p, hvlt⟩) ∈
          (sort_by_values d).keys.zip (sort_by_values d).values :=
        List.mem_iff_getElem?.2 ⟨p, (getElem?_zip_iff _ _ p _ _).2 ⟨hkp, by
          rw [hveq]
          simp [List.get_eq_getElem]⟩⟩
      have hg' := (get_some_iff_mem_zip hwf' k _).2 hzip
      have hg := (get_some_iff_mem_zip hwf k _).2 (hperm.mem_iff.1 hzip)
      rw [hg', hg]
    · have hk2 : k ∉ d.keys := fun hm => hk (hkperm.mem_iff.2 hm)
      have e1 : get (sort_by_values d) k = none := by
        rw [get, hmap' k, posOf_eq_none_iff.2 hk]
        rfl
      have e2 : get d k = none := by
        rw [get, hmap k, posOf_eq_none_iff.2 hk2]
        rfl
      rw [e1, e2]

/-- Witness for C3 at spec scenario 3: sorting the dictionary built from
(3,4), (1,7), (2,1), (5,9) by values yields values [1,4,7,9] and keys
[2,3,1,5]. -/
theorem c3_witness :
    Built exDict ∧
    (((sort_by_values exDict).keys.zip (sort_by_values exDict).values).Perm
       (exDict.keys.zip exDict.values) ∧
     (sort_by_values exDict).values.Sorted (· ≤ ·) ∧
     (∀ k, get (sort_by_values exDict) k = get exDict k) ∧
     (∀ k, (sort_by_values exDict).key_map k = posOf k (sort_by_values exDict).keys)) ∧
    (sort_by_values exDict).values = [1, 4, 7, 9] ∧
    (sort_by_values exDict).keys = [2, 3, 1, 5] :=
  ⟨exDict_built, c3_sort_by_values_correct exDict exDict_built, by decide, by decide⟩

/-! ### Well-formedness along reachable states, and the lookup invariant -/

lemma posOf_eraseIdx_self {K : Type} [DecidableEq K] :
    ∀ (l : List K) (k : K) (i : Nat), l.Nodup → posOf k l = some i →
      posOf k (l.eraseIdx i) = none := by
  intro l
  induction l with
  | nil => intro k i _ hp; simp [posOf] at hp
  | cons a t ih =>
    intro k i hnd hp
    obtain ⟨ha, ht⟩ := List.nodup_cons.1 hnd
    by_cases hak : a = k
    · simp only [posOf, hak, if_true, Option.some.injEq] at hp
      subst hak
      rw [← hp]
      show posOf a t = none
      exact posOf_eq_none_iff.2 ha
    · simp only [posOf, hak, if_false, Option.map_eq_some'] at hp
      obtain ⟨j, hj, rfl⟩ := hp
      show posOf k (a :: t.eraseIdx j) = none
      simp only [posOf, hak, if_false, Option.map_eq_none']
      exact ih k j ht hj

lemma posOf_eraseIdx_other {K : Type} [DecidableEq K] :
    ∀ (l : List K) (k q : K) (i : Nat), l.Nodup → posOf k l = some i → q ≠ k →
      posOf q (l.eraseIdx i) =
        (posOf q l).map (fun j => if i < j then j - 1 else j) := by
  intro l
  induction l with
  | nil => intro k q i _ hp; simp [posOf] at hp
  | cons a t ih =>
    intro k q i hnd hp hqk
    obtain ⟨ha, ht⟩ := List.nodup_cons.1 hnd
    by_cases hak : a = k
    · simp only [posOf, hak, if_true, Option.some.injEq] at hp
      rw [← hp]
      show posOf q t = (posOf q (a :: t)).map (fun j => if 0 < j then j - 1 else j)
      have haq : ¬ a = q := fun he => hqk (he.symm.trans hak)
      simp only [posOf, haq, if_false, Option.map_map]
      cases posOf q t with
      | none => simp
      | some j => simp [Function.comp]
    · simp only [posOf, hak, if_false, Option.map_eq_some'] at hp
      obtain ⟨j, hj, rfl⟩ := hp
      show posOf q (a :: t.eraseIdx j) =
        (posOf q (a :: t)).map (fun m => if j + 1 < m then m - 1 else m)
      by_cases haq : a = q
      · simp [posOf, haq]
      · simp only [posOf, haq, if_false, ih k q j ht hj hqk, Option.map_map]
        cases posOf q t with
        | none => simp
        | some m =>
          simp only [Option.map_some', Function.comp_apply, Option.some.injEq]
          by_cases hjm : j < m
          · rw [if_pos hjm, if_pos (by omega)]
            omega
          · rw [if_neg hjm, if_neg (by omega)]

lemma WF_remove {K V : Type} [DecidableEq K] {d : Dictionary K V} (hd : WF d) (k : K) :
    WF (remove d k).2 := by
  obtain ⟨hlk, hlv, hnd, hmap⟩ := id hd
  cases hm : d.key_map k with
  | none =>
    have he : (remove d k).2 = d := by simp [remove, hm]
    rw [he]
    exact hd
  | some i =>
    have hpos : posOf k d.keys = some i := (hmap k).symm.trans hm
    have hklt : i < d.keys.length := posOf_lt_length hpos
    refine ⟨?_, ?_, ?_, ?_⟩
    · have h1 : (remove d k).2.len = d.len - 1 := by simp [remove, hm]
      have h2 : (remove d k).2.keys = d.keys.eraseIdx i := by simp [remove, hm]
      rw [h1, h2, List.length_eraseIdx, if_pos hklt]
      omega
    · have h1 : (remove d k).2.len = d.len - 1 := by simp [remove, hm]
      have h2 : (remove d k).2.values = d.values.eraseIdx i := by simp [remove, hm]
      rw [h1, h2, List.length_eraseIdx, if_pos (by omega)]
      omega
    · have h2 : (remove d k).2.keys = d.keys.eraseIdx i := by simp [remove, hm]
      rw [h2]
      exact (List.eraseIdx_sublist d.keys i).nodup hnd
    · intro q
      have h2 : (remove d k).2.keys = d.keys.eraseIdx i := by simp [remove, hm]
      by_cases hq : q = k
      · have h3 : (remove d k).2.key_map k = none := by simp [remove, hm]
        rw [hq, h3, h2, posOf_eraseIdx_self d.keys k i hnd hpos]
      · have h3 : (remove d k).2.key_map q =
            (d.key_map q).map (fun j => if i < j then j - 1 else j) := by
          simp [remove, hm, hq]
        rw [h3, h2, posOf_eraseIdx_other d.keys k q i hnd hpos hq, hmap q]

lemma reachable_wf {K V : Type} [LinearOrder K] [DecidableEq K] [LinearOrder V]
    {d : Dictionary K V} (hd : Reachable d) : WF d := by
  induction hd with
  | empty => exact ⟨rfl, rfl, List.nodup_nil, fun _ => rfl⟩
  | push d k v _ hfresh ih => exact WF_push_back ih hfresh v
  | rem d k _ ih => exact WF_remove ih k
  | sortK d _ ih => exact WF_sort_by_keys ih
  | sortV d _ ih => exact (WF_sort_by_values ih).1

/-- Claim C1, amended: over any sequence of `push_back` (of a key not
currently present), `remove`, `sort_by_keys` and `sort_by_values`
operations starting from the empty dictionary — `insert` excluded, see the
counterexample — every key `k` stored in the map satisfies
`get_index(key_map[k]) = get(k)`. -/
theorem c1_get_index_agrees {K V : Type} [LinearOrder K] [DecidableEq K] [LinearOrder V]
    (d : Dictionary K V) (hd : Reachable d) :
    ∀ k i, d.key_map k = some i → get_index d i = get d k := by
  have hwf : WF d := reachable_wf hd
  obtain ⟨hlk, hlv, hnd, hmap⟩ := hwf
  intro k i hi
  have hpos : posOf k d.keys = some i := (hmap k).symm.trans hi
  have hlt : i < d.keys.length := posOf_lt_length hpos
  rw [get_index, if_pos (by omega), get, hi]
  rfl

/-- A state reached by three fresh appends, a removal and both sorts. -/
def dReach : Dictionary Nat Nat :=
  sort_by_keys (sort_by_values
    (remove (push_back (push_back (push_back (Dictionary.new Nat Nat) 3 30) 1 10) 2 20) 1).2)

lemma dReach_reachable : Reachable dReach :=
  Reachable.sortK _ (Reachable.sortV _ (Reachable.rem _ 1
    (Reachable.push _ 2 20
      (Reachable.push _ 1 10
        (Reachable.push _ 3 30 Reachable.empty (by decide))
        (by decide))
      (by decide))))

/-- Witness for the amended C1 on a concrete reachable state: after
appending (3,30), (1,10), (2,20), removing key 1 and running both sorts,
key 3 is stored at position 1 and `get_index 1` agrees with `get 3`. -/
theorem c1_witness :
    dReach.key_map 3 = some 1 ∧ get_index dReach 1 = get dReach 3 :=
  ⟨by decide, c1_get_index_agrees dReach dReach_reachable 3 1 (by decide)⟩

/-- Counterexample to C1 as stated (with `insert` among the operations):
after `push_back(1,10)` and `insert(9,20,0)` — a legal position, 0 ≤ len —
key 1 is present with stored position 1 and `get(1) = some 10`, yet
`get_index(key_map[1]) = get_index(1) = none`, because `insert` does not
update `len`. -/
theorem c1_counterexample :
    (insertOp (push_back (Dictionary.new Nat Nat) 1 10) 9 20 0).key_map 1 = some 1 ∧
    get (insertOp (push_back (Dictionary.new Nat Nat) 1 10) 9 20 0) 1 = some 10 ∧
    get_index (insertOp (push_back (Dictionary.new Nat Nat) 1 10) 9 20 0) 1 = none := by
  decide
